import Mathlib

/-!
Verification development for the `live_datacleaner` streaming workflow engine.

The definitions below are a shallow embedding of the engine's code:

* `src/utils/config.py`        — the pattern registry `REGEX_PATTERNS_UNICODE`;
* `src/cli_process.py`         — `StreamingDataProcessor` (column operations,
  data cleaning, nesting, metadata, validation, deduplication, driver order);
* `src/utils/filename_utils.py` — filename generation and validation.

Strings are modelled as `List Char` (`Str`).  Polars' `str.extract_all` /
`str.replace_all` over an alternation of patterns is modelled by an explicit
left-to-right scanner with leftmost-first alternative preference (the
semantics of the Rust regex engine used by polars): at each position the
first alternative that matches is taken, the match is consumed, and
unmatched characters are skipped (for extraction) or copied (for
replacement).  All alternation members appearing in the engine are single
Unicode character classes or non-empty literal strings, so each successful
match consumes at least one character; the scanners take their fuel from the
length of the input, which is always sufficient.
-/

set_option maxHeartbeats 1000000
set_option linter.unnecessarySeqFocus false

namespace LiveDataCleaner

abbrev Str := List Char

/-- Unicode `White_Space` characters: the set matched by the Rust regex
class `\s` and trimmed by polars' `str.strip_chars()` with no argument. -/
def wsChar (c : Char) : Bool :=
  c.toNat == 0x09 || c.toNat == 0x0A || c.toNat == 0x0B || c.toNat == 0x0C ||
  c.toNat == 0x0D || c.toNat == 0x20 || c.toNat == 0x85 || c.toNat == 0xA0 ||
  c.toNat == 0x1680 || (decide (0x2000 ≤ c.toNat) && decide (c.toNat ≤ 0x200A)) ||
  c.toNat == 0x2028 || c.toNat == 0x2029 || c.toNat == 0x202F ||
  c.toNat == 0x205F || c.toNat == 0x3000

/-- One alternative of a combined regex: either a single-character Unicode
class, or a non-empty literal string. -/
inductive RegexAlt where
  | cls (p : Char → Bool)
  | lit (tok : Str)

/-- Try to match one alternative at the start of `s`, returning the matched
prefix.  A character class consumes exactly one character; a literal consumes
itself.  The empty literal never matches (no registry literal is empty). -/
def altMatch (s : Str) : RegexAlt → Option Str
  | .cls p =>
    match s with
    | c :: _ => if p c then some [c] else none
    | [] => none
  | .lit [] => none
  | .lit (t :: ts) => if (t :: ts).isPrefixOf s then some (t :: ts) else none

/-- Leftmost-first alternation: the first alternative that matches at the
current position wins. -/
def firstAltMatch (alts : List RegexAlt) (s : Str) : Option Str :=
  match alts with
  | [] => none
  | a :: rest =>
    match altMatch s a with
    | some m => some m
    | none => firstAltMatch rest s

/-- Scanner for `str.extract_all(combined).list.join("")`: concatenate all
non-overlapping leftmost matches of the alternation, in source order,
dropping unmatched characters. -/
def extractScan : Nat → List RegexAlt → Str → Str
  | 0, _, _ => []
  | _, _, [] => []
  | fuel + 1, alts, c :: rest =>
    match firstAltMatch alts (c :: rest) with
    | some m => m ++ extractScan fuel alts (List.drop (m.length - 1) rest)
    | none => extractScan fuel alts rest

/-- `extract_all` + join over an alternation. -/
def extractAllJoin (alts : List RegexAlt) (s : Str) : Str :=
  extractScan s.length alts s

/-- Scanner for `str.replace_all(combined, repl)` where `repl` is a single
character: each leftmost match is replaced by `repl`, unmatched characters
are copied. -/
def replaceScan (repl : Char) : Nat → List RegexAlt → Str → Str
  | 0, _, s => s
  | _, _, [] => []
  | fuel + 1, alts, c :: rest =>
    match firstAltMatch alts (c :: rest) with
    | some m => repl :: replaceScan repl fuel alts (List.drop (m.length - 1) rest)
    | none => c :: replaceScan repl fuel alts rest

/-- `replace_all` of an alternation by a single character. -/
def replaceAllAlts (alts : List RegexAlt) (repl : Char) (s : Str) : Str :=
  replaceScan repl s.length alts s

/-- All alternatives are single character classes. -/
def altsClassOnly (alts : List RegexAlt) : Bool :=
  alts.all fun a => match a with | .cls _ => true | .lit _ => false

/-- The union of the character classes of an alternation. -/
def altsUnion (alts : List RegexAlt) (c : Char) : Bool :=
  alts.any fun a => match a with | .cls p => p c | .lit _ => false

theorem altMatch_isPrefix {s : Str} {a : RegexAlt} {m : Str}
    (h : altMatch s a = some m) : m ≠ [] ∧ m.isPrefixOf s = true := by
  cases a with
  | cls p =>
    cases s with
    | nil => simp [altMatch] at h
    | cons c rest =>
      simp only [altMatch] at h
      by_cases hp : p c
      · simp [hp] at h
        subst h
        simp [List.isPrefixOf]
      · simp [hp] at h
  | lit tok =>
    cases tok with
    | nil => simp [altMatch] at h
    | cons t ts =>
      simp only [altMatch] at h
      by_cases hp : (t :: ts).isPrefixOf s
      · simp [hp] at h
        subst h
        exact ⟨by simp, hp⟩
      · simp [hp] at h

theorem firstAltMatch_isPrefix {alts : List RegexAlt} {s m : Str}
    (h : firstAltMatch alts s = some m) : m ≠ [] ∧ m.isPrefixOf s = true := by
  induction alts with
  | nil => simp [firstAltMatch] at h
  | cons a rest ih =>
    simp only [firstAltMatch] at h
    cases ha : altMatch s a with
    | some m' => rw [ha] at h; cases h; exact altMatch_isPrefix ha
    | none => rw [ha] at h; exact ih h

/-- For an alternation consisting only of character classes, matching at a
position succeeds exactly on characters in the union of the classes, and the
match is that single character. -/
theorem firstAltMatch_classes {alts : List RegexAlt} (h : altsClassOnly alts = true)
    (c : Char) (rest : Str) :
    firstAltMatch alts (c :: rest) =
      (if altsUnion alts c then some [c] else none) := by
  induction alts with
  | nil => simp [firstAltMatch, altsUnion]
  | cons a as ih =>
    simp only [altsClassOnly, List.all_cons, Bool.and_eq_true] at h
    obtain ⟨ha, has⟩ := h
    cases a with
    | lit tok => simp at ha
    | cls p =>
      simp only [firstAltMatch, altMatch]
      by_cases hp : p c
      · simp [hp, altsUnion]
      · simp only [hp, if_false]
        rw [ih has]
        simp [altsUnion, hp]

/-- The keep-filter semantics of class-only alternations: extracting all
matches and joining them reduces the string to exactly the characters in the
union of the selected classes, in source order. -/
theorem extractScan_classes {alts : List RegexAlt} (h : altsClassOnly alts = true) :
    ∀ fuel (s : Str), s.length ≤ fuel →
      extractScan fuel alts s = s.filter (altsUnion alts) := by
  intro fuel
  induction fuel with
  | zero =>
    intro s hs
    have : s = [] := List.length_eq_zero.mp (Nat.le_zero.mp hs)
    subst this
    simp [extractScan]
  | succ n ih =>
    intro s hs
    cases s with
    | nil => simp [extractScan]
    | cons c rest =>
      simp only [extractScan]
      rw [firstAltMatch_classes h]
      by_cases hc : altsUnion alts c
      · have hlen : rest.length ≤ n := by
          simpa using Nat.succ_le_succ_iff.mp hs
        simp [hc, ih rest hlen, List.filter_cons]
      · have hlen : rest.length ≤ n := by
          simpa using Nat.succ_le_succ_iff.mp hs
        simp [hc, ih rest hlen, List.filter_cons]

theorem extractAllJoin_classes {alts : List RegexAlt} (h : altsClassOnly alts = true)
    (s : Str) : extractAllJoin alts s = s.filter (altsUnion alts) :=
  extractScan_classes h s.length s (Nat.le_refl _)

/-! ## Pattern registry (`src/utils/config.py`, `REGEX_PATTERNS_UNICODE`)

Each registry regex is a single Unicode character class or a literal.  The
two `literal_escaped_*` entries are the regexes `\\u0020` and `\\u000A`,
which match the six-character literal texts ` ` and `\u000A`. -/

def kazakhCyrillicClass (c : Char) : Bool :=
  c.toNat == 0x4D8 || c.toNat == 0x4D9 || c.toNat == 0x406 ||
  c.toNat == 0x456 || c.toNat == 0x4B0 || c.toNat == 0x4B1

def uzbekCyrillicClass (c : Char) : Bool :=
  c.toNat == 0x40E || c.toNat == 0x45E || c.toNat == 0x4B2 || c.toNat == 0x4B3

def cyrillicCommonClass (c : Char) : Bool :=
  (decide (0x410 ≤ c.toNat) && decide (c.toNat ≤ 0x44F)) ||
  c.toNat == 0x401 || c.toNat == 0x451

def cyrillicExtendedClass (c : Char) : Bool :=
  c.toNat == 0x4E8 || c.toNat == 0x4E9 || c.toNat == 0x4AF ||
  c.toNat == 0x4B1 || c.toNat == 0x4A2 || c.toNat == 0x4A3 ||
  c.toNat == 0x49A || c.toNat == 0x49B || c.toNat == 0x492 || c.toNat == 0x493

def latynKazakhClass (c : Char) : Bool :=
  c.toNat == 0xE4 || c.toNat == 0xC4 || c.toNat == 0x11F || c.toNat == 0x11E ||
  c.toNat == 0x131 || c.toNat == 0x130 || c.toNat == 0xF1 || c.toNat == 0xD1 ||
  c.toNat == 0x15F || c.toNat == 0x15E

def latynUzbekClass (c : Char) : Bool :=
  c.toNat == 0x2BB || c.toNat == 0x2BC

def latinBasicClass (c : Char) : Bool :=
  (decide ('A' ≤ c) && decide (c ≤ 'Z')) || (decide ('a' ≤ c) && decide (c ≤ 'z'))

def latinExtendedClass (c : Char) : Bool :=
  c.toNat == 0xF6 || c.toNat == 0xD6 || c.toNat == 0xFC || c.toNat == 0xDC

/-- The registry `REGEX_PATTERNS_UNICODE` of `src/utils/config.py`, in
source order. -/
def REGEX_PATTERNS_UNICODE : List (String × RegexAlt) :=
  [("kazakh_cyrillic", .cls kazakhCyrillicClass),
   ("uzbek_cyrillic", .cls uzbekCyrillicClass),
   ("cyrillic_common", .cls cyrillicCommonClass),
   ("cyrillic_extended", .cls cyrillicExtendedClass),
   ("latyn_kazakh", .cls latynKazakhClass),
   ("latyn_uzbek", .cls latynUzbekClass),
   ("latin_basic", .cls latinBasicClass),
   ("latin_extended", .cls latinExtendedClass),
   ("digits", .cls fun c => c.isDigit),
   ("space", .cls fun c => c == ' '),
   ("newline", .cls fun c => c == '\n'),
   ("literal_escaped_space", .lit ['\\', 'u', '0', '0', '2', '0']),
   ("literal_escaped_newline", .lit ['\\', 'u', '0', '0', '0', 'A']),
   ("colon", .cls fun c => c == ':'),
   ("semicolon", .cls fun c => c == ';'),
   ("hyphen", .cls fun c => c == '-'),
   ("underscore", .cls fun c => c == '_'),
   ("period", .cls fun c => c == '.'),
   ("comma", .cls fun c => c == ','),
   ("backslash", .cls fun c => c == '\\'),
   ("forward_slash", .cls fun c => c == '/'),
   ("vertical_bar", .cls fun c => c == '|'),
   ("double_quote", .cls fun c => c == '"'),
   ("single_quote", .cls fun c => c == '\''),
   ("dollar", .cls fun c => c == '$'),
   ("at", .cls fun c => c == '@'),
   ("hash", .cls fun c => c == '#'),
   ("asterisk", .cls fun c => c == '*')]

/-- `REGEX_PATTERNS_UNICODE.get(p)` — dictionary lookup by key. -/
def regexLookup (k : String) : Option RegexAlt :=
  (REGEX_PATTERNS_UNICODE.find? (fun p => p.1 == k)).map (·.2)

/-- Membership test `p in REGEX_PATTERNS_UNICODE`. -/
def isRegistryKey (k : String) : Bool :=
  (regexLookup k).isSome

/-- `pattern_strings = [REGEX_PATTERNS_UNICODE.get(p, p) for p in patterns
if p in REGEX_PATTERNS_UNICODE]` — unknown keys are silently dropped and the
remaining regexes are joined into one alternation with `"|"`. -/
def combinePatterns (keys : List String) : List RegexAlt :=
  keys.filterMap regexLookup

/-! ## Data cleaning (`StreamingDataProcessor._apply_data_cleaning`)

The eight chained string operations of the first `with_columns` block, in
source order.  Single-character-class `replace_all`s act pointwise and are
modelled as `List.map` / `List.filter`; the one multi-character alternation
(`&nbsp;`, `\\n`, `\\t`, `\\r`, U+00A0, U+FEFF, each replaced by a space) is modelled with the scanner;
`\s{2,}` → `" "` replaces each maximal run of two or more whitespace
characters by a single space and is modelled by a run-merging recursion. -/

/-- Step 1: `replace_all(r'["\']', '')` — delete double and single quotes. -/
def cleanStep1 (s : Str) : Str :=
  s.filter fun c => !(c == '"' || c == '\'')

/-- The literal alternatives of `r'&nbsp;|\\n|\\t|\\r|\xa0|\ufeff'`. -/
def nbspAlts : List RegexAlt :=
  [.lit ['&', 'n', 'b', 's', 'p', ';'], .lit ['\\', 'n'], .lit ['\\', 't'],
   .lit ['\\', 'r'], .lit ['\u00A0'], .lit ['\uFEFF']]

/-- Step 2: replace HTML nbsp, literal escape sequences, NBSP and BOM by a
space. -/
def cleanStep2 (s : Str) : Str :=
  replaceAllAlts nbspAlts ' ' s

/-- Step 3: `replace_all(r'[\n\r\t]', ' ')`. -/
def cleanStep3 (s : Str) : Str :=
  s.map fun c => if c == '\n' || c == '\r' || c == '\t' then ' ' else c

/-- The character class of the special spaces U+00A0, U+202F, U+2007,
U+1680, U+180E, U+205F. -/
def specialSpaceChar (c : Char) : Bool :=
  c.toNat == 0xA0 || c.toNat == 0x202F || c.toNat == 0x2007 ||
  c.toNat == 0x1680 || c.toNat == 0x180E || c.toNat == 0x205F

/-- Step 4: replace the special space characters by a plain space. -/
def cleanStep4 (s : Str) : Str :=
  s.map fun c => if specialSpaceChar c then ' ' else c

/-- The character class of the invisible formatters U+200B, U+200C, U+200D,
U+2060, U+00AD, U+200E, U+200F, U+061C. -/
def invisibleChar (c : Char) : Bool :=
  c.toNat == 0x200B || c.toNat == 0x200C || c.toNat == 0x200D ||
  c.toNat == 0x2060 || c.toNat == 0xAD || c.toNat == 0x200E ||
  c.toNat == 0x200F || c.toNat == 0x61C

/-- Step 5: delete invisible formatters. -/
def cleanStep5 (s : Str) : Str :=
  s.filter fun c => !invisibleChar c

/-- The character class `[\x00-\x1F\x7F]` of ASCII control characters. -/
def controlChar (c : Char) : Bool :=
  decide (c.toNat ≤ 0x1F) || c.toNat == 0x7F

/-- Step 6: delete ASCII control characters. -/
def cleanStep6 (s : Str) : Str :=
  s.filter fun c => !controlChar c

/-- Helper for step 7: `pending` is the next character to emit; while the
pending character and the upcoming character are both whitespace they merge
into a single `' '`. -/
def collapseWsGo : Char → Str → Str
  | c, [] => [c]
  | c, d :: rest =>
    if wsChar c && wsChar d then collapseWsGo ' ' rest
    else c :: collapseWsGo d rest

/-- Step 7: `replace_all(r'\s{2,}', ' ')` — each maximal run of two or more
whitespace characters becomes one space; an isolated whitespace character is
kept unchanged. -/
def cleanStep7 : Str → Str
  | [] => []
  | c :: rest => collapseWsGo c rest

/-- Step 8: `strip_chars()` — trim leading and trailing whitespace. -/
def cleanStep8 (s : Str) : Str :=
  ((s.dropWhile wsChar).reverse.dropWhile wsChar).reverse

/-- The full character-cleaning chain of `_apply_data_cleaning`'s first
`with_columns` block. -/
def cleanChars (s : Str) : Str :=
  cleanStep8 (cleanStep7 (cleanStep6 (cleanStep5 (cleanStep4 (cleanStep3
    (cleanStep2 (cleanStep1 s)))))))

/-- The empty-value tokens of the second `with_columns` block. -/
def EMPTY_TOKENS : List Str :=
  ["", " ", "nan", "NaN", "none", "None", "null", "NULL", "0"].map
    String.toList

/-! ## Data model

A polars cell: null, a UTF-8 string, an integer (the `year` literal), or a
struct (produced only by `_apply_nesting`).  A lazy frame is modelled by its
materialised value: an ordered association list of named cell columns. -/

inductive PValue where
  | vnull
  | vstr (s : Str)
  | vint (n : Int)
  | vstruct (fields : List (String × PValue))

/-- Structural equality on cell values; this is the value equality used by
`unique` for deduplication keys. -/
def PValue.beq : PValue → PValue → Bool
  | .vnull, .vnull => true
  | .vstr a, .vstr b => a == b
  | .vint a, .vint b => a == b
  | .vstruct fs, .vstruct gs => go fs gs
  | _, _ => false
where go : List (String × PValue) → List (String × PValue) → Bool
  | [], [] => true
  | (n, v) :: fs, (m, w) :: gs => n == m && PValue.beq v w && go fs gs
  | _, _ => false

instance : BEq PValue := ⟨PValue.beq⟩

/-- `True` exactly on the null cell. -/
def isNullCell : PValue → Bool
  | .vnull => true
  | _ => false

/-- `cast(pl.Utf8, strict=False)`: strings stay, integers render in
decimal, null stays null (represented as `none`); a struct does not cast
and is treated as null. -/
def cellText : PValue → Option Str
  | .vnull => none
  | .vstr s => some s
  | .vint n => some (toString n).toList
  | .vstruct _ => none

abbrev Frame := List (String × List PValue)

/-- An association-list lookup (Python `dict.get`): the value of the first
pair whose key matches. -/
def alookup {κ α : Type} [BEq κ] : List (κ × α) → κ → Option α
  | [], _ => none
  | p :: rest, k => if p.1 == k then some p.2 else alookup rest k

/-- The schema names of a frame, in order. -/
def headerOf (f : Frame) : List String :=
  f.map (·.1)

/-- The cells of the named column. -/
def getCells (f : Frame) (n : String) : Option (List PValue) :=
  alookup f n

def getCellsD (f : Frame) (n : String) : List PValue :=
  (getCells f n).getD []

def hasCol (f : Frame) (n : String) : Bool :=
  f.any (·.1 == n)

/-- `with_columns` of a per-cell expression aliased to an existing column:
map the transformation over that column's cells. -/
def mapColumn (n : String) (g : PValue → PValue) (f : Frame) : Frame :=
  f.map fun p => if p.1 == n then (p.1, p.2.map g) else p

/-- `with_columns` of a computed column: replace the column when the name
exists, otherwise append it at the end of the schema. -/
def setColumn (f : Frame) (n : String) (cs : List PValue) : Frame :=
  if hasCol f n then f.map (fun p => if p.1 == n then (n, cs) else p)
  else f ++ [(n, cs)]

/-- `drop` a list of columns. -/
def dropColumns (f : Frame) (ns : List String) : Frame :=
  f.filter fun p => !(ns.contains p.1)

/-- `rename` with a simultaneous old-name → new-name mapping. -/
def renameColumns (ren : List (String × String)) (f : Frame) : Frame :=
  f.map fun p => ((alookup ren p.1).getD p.1, p.2)

/-- The height of the frame (cell count of its first column). -/
def frameHeight (f : Frame) : Nat :=
  match f with
  | [] => 0
  | c :: _ => c.2.length

/-- The cell of column `n` at row `i` (null when out of range). -/
def rowCell (f : Frame) (n : String) (i : Nat) : PValue :=
  (getCellsD f n).getD i .vnull

/-- Keep the cells whose row is selected by the mask. -/
def applyMask (cs : List PValue) (mask : List Bool) : List PValue :=
  ((cs.zip mask).filter (·.2)).map (·.1)

/-- Keep the rows selected by the mask, in every column. -/
def filterRowsMask (f : Frame) (mask : List Bool) : Frame :=
  f.map fun p => (p.1, applyMask p.2 mask)

/-- The keep-first-occurrence mask over a list of deduplication keys. -/
def firstOccMaskGo {α : Type} [BEq α] (seen : List α) : List α → List Bool
  | [] => []
  | k :: ks => (!(seen.contains k)) :: firstOccMaskGo (k :: seen) ks

def firstOccurrenceMask {α : Type} [BEq α] (ks : List α) : List Bool :=
  firstOccMaskGo [] ks

/-! ## Workflow document -/

/-- An item of `structure.additional_info`: a plain field name, or a group
dict `{key: [fields], …}`. -/
inductive AddItem where
  | field (name : String)
  | group (entries : List (String × List String))

structure ConcatEntry where
  name : String
  source_columns : List String
  separator : String

/-- The workflow keys consumed by the engine; absent keys default to the
empty list (and `year`/`country_code` to the CLI defaults). -/
structure Workflow where
  regex_rules : List (String × List String) := []
  concatenations : List ConcatEntry := []
  exclude : List String := []
  display_names : List (String × String) := []
  dedup_unique : List String := []
  not_empty : List String := []
  main_info : List String := []
  additional_info : List AddItem := []
  year : Int := 0
  country_code : String := "ru"

/-! ## Column operator (`StreamingDataProcessor.apply_column_operations`) -/

/-- The truthiness test `new_col and regex_rules.get(new_col)` guarding the
first loop; it depends only on the name, so set membership in
`targets_with_regex` is equivalent to re-evaluating it. -/
def isRegexTarget (w : Workflow) (n : String) : Bool :=
  n != "" && (alookup w.regex_rules n).getD [] != []

/-- `targets_with_regex`: concatenation targets that also carry a non-empty
regex rule. -/
def targetsWithRegex (w : Workflow) : List String :=
  w.concatenations.filterMap fun c =>
    if isRegexTarget w c.name then some c.name else none

/-- `sources_preclean_by_target_regex`: existing source columns of such
concatenations. -/
def sourcesPrecleanByTargetRegex (w : Workflow) (avail : List String) : List String :=
  w.concatenations.flatMap fun c =>
    if isRegexTarget w c.name then c.source_columns.filter (avail.contains ·)
    else []

/-- The per-cell regex pipeline
`cast(Utf8, strict=False).fill_null("").str.extract_all(combined)
.list.eval(filter nonempty).list.join("").fill_null("")`: a null becomes the
empty string, and the kept characters of the alternation are joined.  (No
alternative matches the empty string, so the nonempty filter is the
identity; the result of the join is never null.) -/
def regexCleanCell (alts : List RegexAlt) (v : PValue) : PValue :=
  .vstr (extractAllJoin alts ((cellText v).getD []))

/-- Step 1 of `apply_column_operations`: pre-clean the sources of
concatenations whose target carries a regex rule. -/
def precleanStep (w : Workflow) (avail : List String) (f : Frame) : Frame :=
  w.concatenations.foldl (fun f c =>
    if !(targetsWithRegex w).contains c.name then f
    else
      let patterns := (alookup w.regex_rules c.name).getD []
      let alts := combinePatterns patterns
      if alts.isEmpty then f
      else
        c.source_columns.foldl (fun f src =>
          if (sourcesPrecleanByTargetRegex w avail).contains src then
            mapColumn src (regexCleanCell alts) f
          else f) f) f

/-- `pl.concat_str(exprs, separator=sep)` with the default
`ignore_nulls=False`: a row with any null input yields null, otherwise the
casts of the inputs joined by the separator. -/
def rowJoinCell (sep : Str) (vs : List (Option Str)) : PValue :=
  if vs.any Option.isNone then .vnull
  else .vstr (List.intercalate sep (vs.map (·.getD [])))

def concatCells (sep : Str) (colsCells : List (List PValue)) : List PValue :=
  (List.transpose colsCells).map fun row => rowJoinCell sep (row.map cellText)

/-- Step 2: build each concatenation whose source columns all exist in the
original schema; otherwise skip it with a warning. -/
def concatStep (w : Workflow) (avail : List String) (f : Frame) : Frame :=
  w.concatenations.foldl (fun f c =>
    let valid := c.source_columns.filter (avail.contains ·)
    if valid != [] && valid.length == c.source_columns.length then
      setColumn f c.name
        (concatCells c.separator.toList (c.source_columns.map (getCellsD f)))
    else f) f

/-- Step 3: drop the excluded columns that exist in the original schema. -/
def excludeStep (w : Workflow) (avail : List String) (f : Frame) : Frame :=
  if w.exclude.isEmpty then f
  else
    let valid := w.exclude.filter (avail.contains ·)
    if valid.isEmpty then f else dropColumns f valid

/-- One iteration of the step-4 loop: skip empty rules, targets whose
regex was baked into their sources, and the pre-cleaned sources themselves;
otherwise rewrite the column when it exists in the post-exclusion schema. -/
def regexApplyRule (targets sources updatedCols : List String) (f : Frame)
    (rule : String × List String) : Frame :=
  if rule.2.isEmpty then f
  else if targets.contains rule.1 then f
  else if sources.contains rule.1 then f
  else if updatedCols.contains rule.1 then
    mapColumn rule.1 (regexCleanCell (combinePatterns rule.2)) f
  else f

/-- Step 4: apply the remaining regex rules in rule order. -/
def regexStep (w : Workflow) (targets sources updatedCols : List String)
    (f : Frame) : Frame :=
  w.regex_rules.foldl (regexApplyRule targets sources updatedCols) f

/-- `valid_renames`: the `display_names` entries whose old name exists in
the post-exclusion schema and differs from the new name. -/
def validRenames (w : Workflow) (updatedCols : List String) : List (String × String) :=
  w.display_names.filter fun p => updatedCols.contains p.1 && p.1 != p.2

/-- Substitute one name through the rename mapping. -/
def substName (ren : List (String × String)) (c : String) : String :=
  (alookup ren c).getD c

/-- `_update_workflow_column_names`: propagate the applied renames into
`dedup.unique_columns`, `not_empty.columns`, `structure.main_info` (keeping
the reserved entry `additional_info` verbatim) and
`structure.additional_info` (strings and group field lists). -/
def updateWorkflowColumnNames (w : Workflow) (renames : List (String × String)) :
    Workflow :=
  { w with
    dedup_unique := w.dedup_unique.map (substName renames),
    not_empty := w.not_empty.map (substName renames),
    main_info := w.main_info.map fun n =>
      if n = "additional_info" then n else substName renames n,
    additional_info := w.additional_info.map fun item =>
      match item with
      | .field s => .field (substName renames s)
      | .group entries =>
        .group (entries.map fun g => (g.1, g.2.map (substName renames))) }

/-- Step 5: apply the valid renames to the frame and, when any applied,
propagate them into the workflow used by the later stages. -/
def renameStep (w : Workflow) (updatedCols : List String) (f : Frame) :
    Frame × Workflow :=
  let ren := validRenames w updatedCols
  if ren.isEmpty then (f, w)
  else (renameColumns ren f, updateWorkflowColumnNames w ren)

/-- Python `str.lower` / polars `str.to_lowercase` restricted to the
alphabets this repository handles: ASCII and Cyrillic; other characters are
kept unchanged. -/
def pyLowerChar (c : Char) : Char :=
  if decide ('A' ≤ c) && decide (c ≤ 'Z') then Char.ofNat (c.toNat + 32)
  else if decide (0x410 ≤ c.toNat) && decide (c.toNat ≤ 0x42F) then
    Char.ofNat (c.toNat + 32)
  else if c.toNat == 0x401 then Char.ofNat 0x451
  else c

def lowercaseCell : PValue → PValue
  | .vstr s => .vstr (s.map pyLowerChar)
  | v => v

/-- Step 6: `lowercase_columns` over all textual columns. -/
def lowercaseStep (f : Frame) : Frame :=
  f.map fun p => (p.1, p.2.map lowercaseCell)

/-- The character-cleaning pass of `_apply_data_cleaning` on one cell:
string operations propagate nulls. -/
def cleanCellStage1 : PValue → PValue
  | .vstr s => .vstr (cleanChars s)
  | v => v

/-- The empty-value canonicalisation of `_apply_data_cleaning` on one cell:
a value whose stripped form is an empty token, or a null, becomes null. -/
def canonicalizeCell : PValue → PValue
  | .vnull => .vnull
  | .vstr s => if EMPTY_TOKENS.contains (cleanStep8 s) then .vnull else .vstr s
  | v => v

/-- Step 7: `_apply_data_cleaning` — character cleaning over all textual
columns, then empty-value canonicalisation over all textual columns. -/
def applyDataCleaning (f : Frame) : Frame :=
  (f.map fun p => (p.1, p.2.map cleanCellStage1)).map fun p =>
    (p.1, p.2.map canonicalizeCell)

/-! ## Structure assembler (`_apply_nesting`) and metadata -/

/-- `group_keys`: the keys of all non-empty group dicts. -/
def groupKeysOf (items : List AddItem) : List String :=
  items.flatMap fun item =>
    match item with
    | .group entries => if entries.isEmpty then [] else entries.map (·.1)
    | .field _ => []

/-- `flat_fields`: string items that exist in the schema and are not group
keys. -/
def validFlatFields (items : List AddItem) (names : List String) : List String :=
  items.filterMap fun item =>
    match item with
    | .field s =>
      if names.contains s && !(groupKeysOf items).contains s then some s else none
    | .group _ => none

/-- The nested groups with their members that exist in the schema; groups
with no existing member are dropped. -/
def validGroups (items : List AddItem) (names : List String) :
    List (String × List String) :=
  items.flatMap fun item =>
    match item with
    | .field _ => []
    | .group entries =>
      entries.filterMap fun g =>
        let valid := g.2.filter (names.contains ·)
        if valid.isEmpty then none else some (g.1, valid)

/-- The `additional_info` struct of row `i`: flat fields first, then one
sub-struct per group. -/
def structRow (f : Frame) (flats : List String)
    (groups : List (String × List String)) (i : Nat) : PValue :=
  .vstruct ((flats.map fun n => (n, rowCell f n i)) ++
    (groups.map fun g => (g.1, PValue.vstruct (g.2.map fun c => (c, rowCell f c i)))))

/-- Step 8: `_apply_nesting`.  When a structure is configured, select the
existing `main_info` columns (never the reserved name `additional_info`)
plus an `additional_info` column: a struct of the valid members when any
exist, otherwise a null literal column. -/
def applyNesting (w : Workflow) (f : Frame) : Frame :=
  if w.main_info.isEmpty && w.additional_info.isEmpty then f
  else
    let names := headerOf f
    let flats := validFlatFields w.additional_info names
    let groups := validGroups w.additional_info names
    let n := frameHeight f
    let addCells : List PValue :=
      if flats.isEmpty && groups.isEmpty then List.replicate n .vnull
      else (List.range n).map (structRow f flats groups)
    let safeMain := w.main_info.filter fun c =>
      c != "additional_info" && names.contains c
    (safeMain.map fun c => (c, getCellsD f c)) ++ [("additional_info", addCells)]

/-- Step 9: `_add_metadata_fields` — append the literal `year` and
`country_code` columns. -/
def addMetadataFields (w : Workflow) (f : Frame) : Frame :=
  let n := frameHeight f
  setColumn (setColumn f "year" (List.replicate n (.vint w.year)))
    "country_code" (List.replicate n (.vstr w.country_code.toList))

/-- `apply_column_operations`, in the statement order of the source: the
pre-clean / concat / exclude / regex / rename / lowercase / clean / nesting
/ metadata sequence.  Returns the transformed frame together with the
workflow as mutated by the rename propagation. -/
def apply_column_operations (w : Workflow) (f : Frame) : Frame × Workflow :=
  let avail := headerOf f
  let targets := targetsWithRegex w
  let sources := sourcesPrecleanByTargetRegex w avail
  let f1 := precleanStep w avail f
  let f2 := concatStep w avail f1
  let f3 := excludeStep w avail f2
  let updatedCols := headerOf f3
  let f4 := regexStep w targets sources updatedCols f3
  let r5 := renameStep w updatedCols f4
  let f6 := lowercaseStep r5.1
  let f7 := applyDataCleaning f6
  let f8 := applyNesting r5.2 f7
  let f9 := addMetadataFields r5.2 f8
  (f9, r5.2)

/-- `apply_validation`: `drop_nulls(subset=not_empty.columns)`.  A listed
column missing from the schema makes the lazy plan unresolvable — the run
fails when the plan is executed. -/
def apply_validation (w : Workflow) (f : Frame) : Except String Frame :=
  if w.not_empty.isEmpty then .ok f
  else if w.not_empty.all ((headerOf f).contains ·) then
    .ok (filterRowsMask f ((List.range (frameHeight f)).map fun i =>
      w.not_empty.all fun c => !isNullCell (rowCell f c i)))
  else .error "ColumnNotFoundError"

/-- `apply_deduplication`: `unique(subset=…)` keyed on the configured
columns that exist (all columns when the list is empty or none exist).  The
survivor among duplicates is unspecified in polars; the model keeps the
first occurrence. -/
def apply_deduplication (w : Workflow) (f : Frame) : Frame :=
  let schemaCols := headerOf f
  let uniqueCols :=
    if w.dedup_unique.isEmpty then schemaCols
    else
      let valid := w.dedup_unique.filter (schemaCols.contains ·)
      if valid.isEmpty then schemaCols else valid
  let keys := (List.range (frameHeight f)).map fun i =>
    uniqueCols.map fun c => rowCell f c i
  filterRowsMask f (firstOccurrenceMask keys)

/-- `process_streaming` (after the source scan): column operations — which
in this engine include nesting and metadata injection — then validation,
then deduplication, then the sink. -/
def process_streaming (w : Workflow) (f : Frame) : Except String Frame :=
  let r := apply_column_operations w f
  match apply_validation r.2 r.1 with
  | .ok g => .ok (apply_deduplication r.2 g)
  | .error e => .error e

/-! ## Filename builder (`src/utils/filename_utils.py`) -/

/-- The default `ALLOWED_COUNTRY_CODES` (config default
`'ru,kg,uz,tm,ua,by,nl,az'`). -/
def ALLOWED_COUNTRY_CODES : List String :=
  ["ru", "kg", "uz", "tm", "ua", "by", "nl", "az"]

/-- `CYRILLIC_TO_LATIN_MAPPING` of `src/utils/config.py`. -/
def CYRILLIC_TO_LATIN_MAPPING : List (Char × String) :=
  [('а', "a"), ('б', "b"), ('в', "v"), ('г', "g"), ('д', "d"), ('е', "e"),
   ('ё', "e"), ('ж', "zh"), ('з', "z"), ('и', "i"), ('й', "y"), ('к', "k"),
   ('л', "l"), ('м', "m"), ('н', "n"), ('о', "o"), ('п', "p"), ('р', "r"),
   ('с', "s"), ('т', "t"), ('у', "u"), ('ф', "f"), ('х', "kh"), ('ц', "ts"),
   ('ч', "ch"), ('ш', "sh"), ('щ', "shch"), ('ъ', ""), ('ы', "y"), ('ь', ""),
   ('э', "e"), ('ю', "yu"), ('я', "ya"),
   ('А', "a"), ('Б', "b"), ('В', "v"), ('Г', "g"), ('Д', "d"), ('Е', "e"),
   ('Ё', "e"), ('Ж', "zh"), ('З', "z"), ('И', "i"), ('Й', "y"), ('К', "k"),
   ('Л', "l"), ('М', "m"), ('Н', "n"), ('О', "o"), ('П', "p"), ('Р', "r"),
   ('С', "s"), ('Т', "t"), ('У', "u"), ('Ф', "f"), ('Х', "kh"), ('Ц', "ts"),
   ('Ч', "ch"), ('Ш', "sh"), ('Щ', "shch"), ('Ъ', ""), ('Ы', "y"), ('Ь', ""),
   ('Э', "e"), ('Ю', "yu"), ('Я', "ya")]

/-- `transliterate_cyrillic_to_latin`: per character,
`CYRILLIC_TO_LATIN_MAPPING.get(ch, ch)`. -/
def transliterate_cyrillic_to_latin (s : Str) : Str :=
  s.flatMap fun c =>
    match alookup CYRILLIC_TO_LATIN_MAPPING c with
    | some t => t.toList
    | none => [c]

def pyLowerStr (s : Str) : Str :=
  s.map pyLowerChar

/-- `validate_country_code` (success component): `cc.lower()` must be in
the allowed set. -/
def validate_country_code (cc : Str) : Bool :=
  (ALLOWED_COUNTRY_CODES.map String.toList).contains (pyLowerStr cc)

/-- The class `[a-z0-9_-]` of characters legal in a sanitized basename and
in the middle part of the validator's regex. -/
def allowedBasenameChar (c : Char) : Bool :=
  (decide ('a' ≤ c) && decide (c ≤ 'z')) || c.isDigit || c == '_' || c == '-'

/-- Merge runs of two or more underscores into one (`re.sub(r"_+", "_")`;
a single underscore is its own replacement). -/
def collapseUnderscoresGo : Char → Str → Str
  | c, [] => [c]
  | c, d :: rest =>
    if c == '_' && d == '_' then collapseUnderscoresGo '_' rest
    else c :: collapseUnderscoresGo d rest

def collapseUnderscores : Str → Str
  | [] => []
  | c :: rest => collapseUnderscoresGo c rest

/-- Strip leading and trailing `_` and `-` (`str.strip("_-")`). -/
def stripUnderscoreHyphen (s : Str) : Str :=
  ((s.dropWhile fun c => c == '_' || c == '-').reverse.dropWhile
    fun c => c == '_' || c == '-').reverse

/-- `sanitize_basename`: transliterate, lowercase, turn `.`/`,`/space into
`_`, turn every remaining illegal character into `_`, collapse `_` runs,
strip edge `_`/`-`, and fall back to `"data"` when empty.  (The source's
`re.sub(r"[^a-z0-9_-]+", "_")` replaces each illegal run by one `_`;
composed with the following `re.sub(r"_+", "_")` this equals the
per-character replacement followed by the same collapse, which is how it is
modelled.) -/
def sanitize_basename (s : Str) : Str :=
  let name := pyLowerStr (transliterate_cyrillic_to_latin s)
  let name := name.map fun c => if c == '.' || c == ',' || c == ' ' then '_' else c
  let name := name.map fun c => if allowedBasenameChar c then c else '_'
  let name := stripUnderscoreHyphen (collapseUnderscores name)
  if name.isEmpty then "data".toList else name

/-- `pathlib.PurePath` stem/suffix split of a bare file name:
`i = name.rfind('.')`; the suffix starts at `i` when `0 < i < len-1`. -/
def pySplitext (name : Str) : Str × Str :=
  match name.reverse.findIdx? (· == '.') with
  | none => (name, [])
  | some j =>
    let i := name.length - 1 - j
    if 0 < i ∧ i < name.length - 1 then (name.take i, name.drop i)
    else (name, [])

/-- `generate_nomad_filename`: validate the country code (a failure raises
`ValueError`, modelled as `none`), sanitize the stem, append the raw
extension with `.` turned into `_`, and assemble
`nomad-<cc>-<middle>-<year>-<version>.parquet`. -/
def generate_nomad_filename (country_code original_filename : Str)
    (year : Int) (version : Str) : Option Str :=
  if !validate_country_code country_code then none
  else
    let se := pySplitext original_filename
    let safe := sanitize_basename se.1
    let middle := safe ++ (se.2.map fun c => if c == '.' then '_' else c)
    some ("nomad-".toList ++ pyLowerStr country_code ++ "-".toList ++ middle ++
      "-".toList ++ (toString year).toList ++ "-".toList ++ version ++
      ".parquet".toList)

/-- The rigid tail `-\d{4}-v\d+\.parquet` of the validator's regex. -/
def nomadTailCheck : Str → Bool
  | '-' :: y1 :: y2 :: y3 :: y4 :: '-' :: 'v' :: t =>
    y1.isDigit && y2.isDigit && y3.isDigit && y4.isDigit &&
    !(t.takeWhile Char.isDigit).isEmpty &&
    t.dropWhile Char.isDigit == ".parquet".toList
  | _ => false

/-- Existence of a decomposition `[a-z0-9_-]+` ++ tail for the remainder
after `nomad-[a-z]{2}-`. -/
def nomadCoreMatch (r : Str) : Bool :=
  (List.range (r.length + 1)).any fun i =>
    let mid := r.take i
    !mid.isEmpty && mid.all allowedBasenameChar && nomadTailCheck (r.drop i)

/-- Anchored match of `^nomad-[a-z]{2}-[a-z0-9_-]+-\d{4}-v\d+\.parquet$`. -/
def matchesNomadPattern : Str → Bool
  | 'n' :: 'o' :: 'm' :: 'a' :: 'd' :: '-' :: c1 :: c2 :: '-' :: r =>
    decide ('a' ≤ c1) && decide (c1 ≤ 'z') &&
    decide ('a' ≤ c2) && decide (c2 ≤ 'z') && nomadCoreMatch r
  | _ => false

/-- Python's `$` also matches just before one trailing newline. -/
def matchesNomadRegex (s : Str) : Bool :=
  matchesNomadPattern s ||
  (s.getLast? == some '\n' && matchesNomadPattern s.dropLast)

/-- `str.split("-")`. -/
def splitOnDashGo (acc : Str) : Str → List Str
  | [] => [acc.reverse]
  | '-' :: rest => acc.reverse :: splitOnDashGo [] rest
  | c :: rest => splitOnDashGo (c :: acc) rest

def splitOnDash (s : Str) : List Str :=
  splitOnDashGo [] s

/-- `validate_nomad_filename` (success component): non-empty, matches the
regex, and the second dash-separated part is a valid country code. -/
def validate_nomad_filename (s : Str) : Bool :=
  if s.isEmpty then false
  else if !matchesNomadRegex s then false
  else
    let parts := splitOnDash s
    if 2 ≤ parts.length then
      match parts.get? 1 with
      | some cc => validate_country_code cc
      | none => false
    else true

/-- A cell of a textual (string-typed) column: null or a string. -/
def isTextualCell : PValue → Bool
  | .vnull => true
  | .vstr _ => true
  | _ => false

/-! ## Frame access lemmas -/

theorem map_id_of {α : Type} (f : α → α) (l : List α) (h : ∀ x ∈ l, f x = x) :
    l.map f = l := by
  induction l with
  | nil => rfl
  | cons x xs ih =>
    simp only [List.map_cons, h x (List.mem_cons_self x xs)]
    rw [ih fun y hy => h y (List.mem_cons_of_mem x hy)]

theorem getCells_mapCells (g : PValue → PValue) (f : Frame) (col : String) :
    getCells (f.map fun p => (p.1, p.2.map g)) col =
      (getCells f col).map (List.map g) := by
  induction f with
  | nil => rfl
  | cons p rest ih =>
    cases hb : p.1 == col <;> simp [getCells, alookup, hb] at ih ⊢ <;> exact ih

theorem getCells_mapColumn_self (n : String) (g : PValue → PValue) (f : Frame) :
    getCells (mapColumn n g f) n = (getCells f n).map (List.map g) := by
  induction f with
  | nil => rfl
  | cons p rest ih =>
    cases hb : p.1 == n <;>
      simp [mapColumn, getCells, alookup, hb] at ih ⊢ <;> exact ih

theorem getCells_mapColumn_ne (n : String) (g : PValue → PValue) (f : Frame)
    (m : String) (h : m ≠ n) : getCells (mapColumn n g f) m = getCells f m := by
  induction f with
  | nil => rfl
  | cons p rest ih =>
    cases hb : p.1 == n
    · cases hm : p.1 == m <;>
        simp [mapColumn, getCells, alookup, hb, hm] at ih ⊢ <;> exact ih
    · have hm : (p.1 == m) = false := by
        refine beq_eq_false_iff_ne.mpr ?_
        rw [beq_iff_eq.mp hb]; exact fun e => h e.symm
      simp [mapColumn, getCells, alookup, hb, hm] at ih ⊢
      exact ih

theorem getCells_setColumn_self (f : Frame) (n : String) (cs : List PValue) :
    getCells (setColumn f n cs) n = some cs := by
  unfold setColumn
  cases hc : hasCol f n
  · simp only [Bool.false_eq_true, if_false]
    induction f with
    | nil => simp [getCells, alookup]
    | cons p rest ih =>
      simp only [hasCol, List.any_cons, Bool.or_eq_false_iff] at hc
      simp only [List.cons_append, getCells, alookup, hc.1, if_false] at ih ⊢
      exact ih (by simpa [hasCol] using hc.2)
  · simp only [if_true]
    induction f with
    | nil => simp [hasCol] at hc
    | cons p rest ih =>
      cases hb : p.1 == n
      · simp only [hasCol, List.any_cons, hb, Bool.false_or] at hc
        simp only [List.map_cons, hb, Bool.false_eq_true, if_false, getCells,
          alookup] at ih ⊢
        exact ih hc
      · simp [getCells, alookup, hb]

theorem getCells_setColumn_ne (f : Frame) (n : String) (cs : List PValue)
    (m : String) (h : m ≠ n) : getCells (setColumn f n cs) m = getCells f m := by
  have hnm : (n == m) = false := beq_eq_false_iff_ne.mpr fun e => h e.symm
  unfold setColumn
  cases hc : hasCol f n
  · simp only [Bool.false_eq_true, if_false]
    induction f with
    | nil => simp [getCells, alookup, hnm]
    | cons p rest ih =>
      simp only [hasCol, List.any_cons, Bool.or_eq_false_iff] at hc
      cases hm : p.1 == m <;>
        simp only [List.cons_append, getCells, alookup, hm, if_true,
          if_false] at ih ⊢
      exact ih (by simpa [hasCol] using hc.2)
  · simp only [if_true]
    induction f with
    | nil => rfl
    | cons p rest ih =>
      cases hb : p.1 == n
      · simp only [hasCol, List.any_cons, hb, Bool.false_or] at hc
        cases hm : p.1 == m <;>
          simp only [List.map_cons, hb, Bool.false_eq_true, if_false, getCells,
            alookup, hm, if_true] at ih ⊢
        exact ih hc
      · have hm : (p.1 == m) = false := by
          refine beq_eq_false_iff_ne.mpr ?_
          rw [beq_iff_eq.mp hb]; exact fun e => h e.symm
        by_cases hr : hasCol rest n = true
        · simp only [List.map_cons, hb, if_true, getCells, alookup, hnm,
            if_false, hm] at ih ⊢
          exact ih hr
        · simp only [List.map_cons, hb, if_true, getCells, alookup, hnm,
            Bool.false_eq_true, if_false, hm]
          have hid : (rest.map fun p => if p.1 == n then (n, cs) else p) = rest := by
            refine map_id_of _ _ fun q hq => ?_
            have hq1 : (q.1 == n) = false := by
              cases hv : (q.1 == n)
              · rfl
              · exact absurd (by
                  simp only [hasCol, List.any_eq_true]
                  exact ⟨q, hq, hv⟩) hr
            simp [hq1]
          rw [hid]

theorem getCells_isSome_of_contains (f : Frame) (col : String)
    (h : (headerOf f).contains col = true) : ∃ cs, getCells f col = some cs := by
  induction f with
  | nil => simp [headerOf] at h
  | cons p rest ih =>
    cases hb : p.1 == col
    · have hb2 : (col == p.1) = false := by
        refine beq_eq_false_iff_ne.mpr fun e => ?_
        rw [e] at hb
        simp at hb
      simp only [headerOf, List.map_cons, List.contains_cons, hb2,
        Bool.false_or] at h
      obtain ⟨cs, hcs⟩ := ih h
      exact ⟨cs, by simpa [getCells, alookup, hb] using hcs⟩
    · exact ⟨p.2, by simp [getCells, alookup, hb]⟩

theorem getCells_append_last (l : Frame) (n : String) (cs : List PValue)
    (h : ∀ p ∈ l, (p.1 == n) = false) :
    getCells (l ++ [(n, cs)]) n = some cs := by
  induction l with
  | nil => simp [getCells, alookup]
  | cons p rest ih =>
    have hp := h p (List.mem_cons_self p rest)
    simp only [List.cons_append, getCells, alookup, hp, Bool.false_eq_true,
      if_false] at ih ⊢
    exact ih fun q hq => h q (List.mem_cons_of_mem p hq)

theorem extractScan_nil_alts : ∀ fuel (s : Str), extractScan fuel [] s = [] := by
  intro fuel
  induction fuel with
  | zero => intro s; cases s <;> rfl
  | succ n ih =>
    intro s
    cases s with
    | nil => rfl
    | cons c rest => simpa [extractScan, firstAltMatch] using ih rest

/-! ## Claim theorems -/

/-- C4 (code_bug evidence): the filename round-trip promised by the spec
fails.  `generate_nomad_filename` appends the original extension to the
sanitized stem without sanitizing it, so an uppercase extension such as
`.TXT` produces `nomad-ru-data_TXT-2023-v1.parquet`, which its companion
`validate_nomad_filename` rejects (the middle part must match
`[a-z0-9_-]+`). -/
theorem C4_filename_roundtrip_fails :
    generate_nomad_filename "ru".toList "data.TXT".toList 2023 "v1".toList =
      some "nomad-ru-data_TXT-2023-v1.parquet".toList ∧
    validate_nomad_filename "nomad-ru-data_TXT-2023-v1.parquet".toList = false ∧
    validate_nomad_filename "nomad-ru-data_txt-2023-v1.parquet".toList = true := by
  refine ⟨by decide, by decide, by decide⟩

/-- C3 (counterexample): `pl.concat_str` is used with its default
`ignore_nulls=False`, so a row with a null source yields a null
concatenation — not, as the claim states, the concatenation of the
remaining texts (which would be `"x-"` here). -/
theorem C3_concat_null_counterexample :
    getCells
      (concatStep { concatenations := [⟨"full", ["a", "b"], "-"⟩] }
        (headerOf [("a", [PValue.vstr "x".toList]), ("b", [PValue.vnull])])
        [("a", [PValue.vstr "x".toList]), ("b", [PValue.vnull])]) "full" =
      some [PValue.vnull] ∧
    PValue.vnull ≠ PValue.vstr "x-".toList := by
  refine ⟨rfl, by simp⟩

/-- C3 (amended): for a workflow whose single concatenation entry has all
source columns present, the engine adds column `N` whose value in each row
is the separator-joined concatenation of the cast sources when all of them
are non-null, and null when any source is null. -/
theorem C3_concat_amended (f : Frame) (e : ConcatEntry) (w : Workflow)
    (hw : w.concatenations = [e])
    (hne : e.source_columns ≠ [])
    (hsub : ∀ s ∈ e.source_columns, (headerOf f).contains s = true) :
    getCells (concatStep w (headerOf f) f) e.name =
      some (concatCells e.separator.toList
        (e.source_columns.map (getCellsD f))) ∧
    (∀ row : List (Option Str),
      (row.any Option.isNone = true →
        rowJoinCell e.separator.toList row = PValue.vnull) ∧
      (row.any Option.isNone = false →
        rowJoinCell e.separator.toList row =
          PValue.vstr (List.intercalate e.separator.toList
            (row.map (·.getD []))))) := by
  constructor
  · have hfilter : e.source_columns.filter ((headerOf f).contains ·) =
        e.source_columns :=
      List.filter_eq_self.mpr hsub
    simp only [concatStep, hw, List.foldl_cons, List.foldl_nil, hfilter]
    have hvalid : (e.source_columns != []) = true := by
      simpa using hne
    simp only [hvalid, beq_self_eq_true, Bool.and_self, Bool.true_and,
      if_true]
    exact getCells_setColumn_self f e.name _
  · intro row
    constructor
    · intro h
      simp [rowJoinCell, h]
    · intro h
      simp [rowJoinCell, h]

/-- C7: after `_apply_data_cleaning`, every cell of a textual column is
either a true null or a string whose stripped form is not an empty token;
the canonicalisation substep maps every value with an empty-token stripped
form, and every null, to a true null. -/
theorem C7_empty_token_canonicalisation (f : Frame) (col : String)
    (cells : List PValue)
    (h : getCells (applyDataCleaning f) col = some cells)
    (htext : (getCellsD f col).all isTextualCell = true) :
    (∀ v ∈ cells, v = PValue.vnull ∨
      ∃ s, v = PValue.vstr s ∧ EMPTY_TOKENS.contains (cleanStep8 s) = false) ∧
    (∀ s, EMPTY_TOKENS.contains (cleanStep8 s) = true →
      canonicalizeCell (PValue.vstr s) = PValue.vnull) ∧
    canonicalizeCell PValue.vnull = PValue.vnull := by
  have hcanon : ∀ s, EMPTY_TOKENS.contains (cleanStep8 s) = true →
      canonicalizeCell (PValue.vstr s) = PValue.vnull := by
    intro s hs
    have hmem : cleanStep8 s ∈ EMPTY_TOKENS := by simpa using hs
    simp [canonicalizeCell, hmem]
  refine ⟨?_, hcanon, rfl⟩
  have hcells : getCells (applyDataCleaning f) col =
      ((getCells f col).map (List.map cleanCellStage1)).map
        (List.map canonicalizeCell) := by
    unfold applyDataCleaning
    rw [getCells_mapCells, getCells_mapCells]
  rw [hcells] at h
  cases horig : getCells f col with
  | none => rw [horig] at h; simp at h
  | some orig =>
    rw [horig] at h
    simp only [Option.map_some', Option.some.injEq] at h
    subst h
    intro v hv
    simp only [List.map_map, List.mem_map, Function.comp] at hv
    obtain ⟨u, hu, rfl⟩ := hv
    have hut : isTextualCell u = true := by
      have : getCellsD f col = orig := by simp [getCellsD, horig]
      rw [this] at htext
      exact List.all_eq_true.mp htext u hu
    cases u with
    | vnull => exact Or.inl rfl
    | vstr s =>
      simp only [cleanCellStage1, canonicalizeCell]
      cases he : EMPTY_TOKENS.contains (cleanStep8 (cleanChars s))
      · exact Or.inr ⟨cleanChars s, by simp [he], he⟩
      · simp [he]
    | vint n => simp [isTextualCell] at hut
    | vstruct fs => simp [isTextualCell] at hut

/-- C9 (counterexample): an unknown pattern key in `regex_rules` does not
fail the run — the engine filters unknown keys out and continues; here the
run completes successfully and the rule is applied with the one known key
(`digits`). -/
theorem C9_unknown_key_counterexample :
    process_streaming { regex_rules := [("a", ["digits", "bogus_key"])] }
      [("a", [PValue.vstr "a1".toList])] =
      Except.ok [("a", [PValue.vstr "1".toList]),
        ("year", [PValue.vint 0]),
        ("country_code", [PValue.vstr "ru".toList])] := by
  rfl

/-- C9 (amended): an invalid regex key is silently ignored rather than
failing fast: the combined alternation is built only from registry keys,
and a step-4 rule all of whose keys are unknown reduces every cell to the
empty string (an empty alternation keeps nothing) instead of raising. -/
theorem C9_unknown_keys_ignored (keys : List String) :
    combinePatterns keys = combinePatterns (keys.filter isRegistryKey) ∧
    (keys.all (fun k => !isRegistryKey k) = true →
      ∀ v : PValue, regexCleanCell (combinePatterns keys) v = PValue.vstr []) := by
  constructor
  · unfold combinePatterns
    induction keys with
    | nil => rfl
    | cons k ks ih =>
      cases hr : regexLookup k with
      | none =>
        have hk : isRegistryKey k = false := by simp [isRegistryKey, hr]
        simp [List.filter_cons, hk, List.filterMap_cons, hr, ih]
      | some a =>
        have hk : isRegistryKey k = true := by simp [isRegistryKey, hr]
        simp [List.filter_cons, hk, List.filterMap_cons, hr, ih]
  · intro hall v
    have hempty : combinePatterns keys = [] := by
      unfold combinePatterns
      rw [List.filterMap_eq_nil_iff]
      intro k hk
      have h1 := List.all_eq_true.mp hall k hk
      cases hr : regexLookup k with
      | none => rfl
      | some a => simp [isRegistryKey, hr] at h1
    rw [hempty]
    simp [regexCleanCell, extractAllJoin, extractScan_nil_alts]

/-- C10: whenever structure reshaping is requested, the output of
`_apply_nesting` contains an `additional_info` column: a struct of the
existing listed flat fields (flats first, then one sub-struct per group
with its existing members) when at least one such member exists, and a null
literal column otherwise; the surviving `main_info` columns precede it. -/
theorem C10_nesting_additional_info (w : Workflow) (f : Frame)
    (hreq : ¬ (w.main_info = [] ∧ w.additional_info = [])) :
    getCells (applyNesting w f) "additional_info" =
      some (if (validFlatFields w.additional_info (headerOf f)).isEmpty &&
               (validGroups w.additional_info (headerOf f)).isEmpty then
              List.replicate (frameHeight f) PValue.vnull
            else
              (List.range (frameHeight f)).map fun i =>
                PValue.vstruct
                  (((validFlatFields w.additional_info (headerOf f)).map
                      fun n => (n, rowCell f n i)) ++
                    (validGroups w.additional_info (headerOf f)).map fun g =>
                      (g.1, PValue.vstruct
                        (g.2.map fun c => (c, rowCell f c i))))) ∧
    headerOf (applyNesting w f) =
      (w.main_info.filter fun c =>
        c != "additional_info" && (headerOf f).contains c) ++
        ["additional_info"] := by
  have hguard : (w.main_info.isEmpty && w.additional_info.isEmpty) = false := by
    cases hm : w.main_info.isEmpty
    · simp
    · cases ha : w.additional_info.isEmpty
      · simp
      · exact absurd ⟨List.isEmpty_iff.mp hm, List.isEmpty_iff.mp ha⟩ hreq
  constructor
  · unfold applyNesting
    rw [hguard]
    simp only [Bool.false_eq_true, if_false]
    refine getCells_append_last _ _ _ ?_
    intro p hp
    simp only [List.mem_map] at hp
    obtain ⟨c, hc, rfl⟩ := hp
    have := List.of_mem_filter hc
    simp only [Bool.and_eq_true, bne_iff_ne] at this
    exact beq_eq_false_iff_ne.mpr this.1
  · unfold applyNesting
    rw [hguard]
    simp only [Bool.false_eq_true, if_false, headerOf, List.map_append,
      List.map_map, List.map_cons, List.map_nil]
    congr 1
    exact map_id_of _ _ fun _ _ => rfl

/-- C6 (counterexample): renaming a column that is literally named
`additional_info` does propagate into `dedup.unique_columns`, but its
occurrence in `structure.main_info` is kept verbatim (the reserved-name
branch of `_update_workflow_column_names`), so not every occurrence of the
old name is replaced as the claim states. -/
theorem C6_reserved_name_counterexample :
    headerOf (renameStep
        { display_names := [("additional_info", "extra")],
          dedup_unique := ["additional_info"],
          main_info := ["additional_info"] }
        ["additional_info"]
        [("additional_info", [PValue.vstr "x".toList])]).1 = ["extra"] ∧
    (renameStep
        { display_names := [("additional_info", "extra")],
          dedup_unique := ["additional_info"],
          main_info := ["additional_info"] }
        ["additional_info"]
        [("additional_info", [PValue.vstr "x".toList])]).2.dedup_unique =
      ["extra"] ∧
    (renameStep
        { display_names := [("additional_info", "extra")],
          dedup_unique := ["additional_info"],
          main_info := ["additional_info"] }
        ["additional_info"]
        [("additional_info", [PValue.vstr "x".toList])]).2.main_info =
      ["additional_info"] ∧
    "additional_info" ≠ "extra" := by
  exact ⟨rfl, rfl, rfl, by decide⟩

theorem alookup_filter_renames (l : List (String × String))
    (cols : List String) (a a' : String)
    (hk : (l.map Prod.fst).Nodup) (hmem : (a, a') ∈ l)
    (hex : cols.contains a = true) (hne : a ≠ a') :
    alookup (l.filter fun p => cols.contains p.1 && p.1 != p.2) a =
      some a' := by
  induction l with
  | nil => simp at hmem
  | cons p rest ih =>
    simp only [List.map_cons, List.nodup_cons] at hk
    rcases List.mem_cons.mp hmem with heq | hmemr
    · subst heq
      have hmemc : a ∈ cols := by simpa using hex
      simp [List.filter_cons, hmemc, hne, alookup]
    · have hpa : (p.1 == a) = false := by
        refine beq_eq_false_iff_ne.mpr fun e => ?_
        have hm : a ∈ rest.map Prod.fst := by
          simpa using List.mem_map_of_mem Prod.fst hmemr
        rw [e] at hk
        exact hk.1 hm
      cases hc : (cols.contains p.1 && p.1 != p.2) with
      | true =>
        simp only [List.filter_cons, hc, if_true, alookup, hpa,
          Bool.false_eq_true, if_false]
        exact ih hk.2 hmemr
      | false =>
        simp only [List.filter_cons, hc, Bool.false_eq_true, if_false]
        exact ih hk.2 hmemr

theorem alookup_validRenames {w : Workflow} {cols : List String}
    {a a' : String} (hk : (w.display_names.map Prod.fst).Nodup)
    (hmem : (a, a') ∈ w.display_names)
    (hex : cols.contains a = true) (hne : a ≠ a') :
    alookup (validRenames w cols) a = some a' :=
  alookup_filter_renames w.display_names cols a a' hk hmem hex hne

/-- C6 (amended): after a successful rename of column `a` to `a'`
(`a` exists, `a ≠ a'`), the propagated workflow replaces occurrences
through the substitution of the applied renames — which maps `a` to `a'` —
in `dedup.unique_columns`, `not_empty.columns`, `structure.main_info` and
`structure.additional_info` (strings and group field lists alike), with the
single exception that a `structure.main_info` entry equal to the reserved
name `additional_info` is kept verbatim. -/
theorem C6_rename_propagation_amended (w : Workflow) (cols : List String)
    (f : Frame) (a a' : String)
    (hk : (w.display_names.map Prod.fst).Nodup)
    (hmem : (a, a') ∈ w.display_names)
    (hex : cols.contains a = true) (hne : a ≠ a') :
    substName (validRenames w cols) a = a' ∧
    (renameStep w cols f).2.dedup_unique =
      w.dedup_unique.map (substName (validRenames w cols)) ∧
    (renameStep w cols f).2.not_empty =
      w.not_empty.map (substName (validRenames w cols)) ∧
    (renameStep w cols f).2.main_info =
      w.main_info.map (fun n => if n = "additional_info" then n
        else substName (validRenames w cols) n) ∧
    (renameStep w cols f).2.additional_info =
      w.additional_info.map (fun item => match item with
        | AddItem.field s => AddItem.field (substName (validRenames w cols) s)
        | AddItem.group es =>
          AddItem.group (es.map fun g =>
            (g.1, g.2.map (substName (validRenames w cols))))) := by
  have hlook := alookup_validRenames hk hmem hex hne
  have hnonempty : (validRenames w cols).isEmpty = false := by
    cases hv : validRenames w cols with
    | nil => rw [hv] at hlook; simp [alookup] at hlook
    | cons q qs => simp
  have hstep : (renameStep w cols f).2 =
      updateWorkflowColumnNames w (validRenames w cols) := by
    unfold renameStep
    simp [hnonempty]
  refine ⟨by simp [substName, hlook], ?_, ?_, ?_, ?_⟩ <;>
    rw [hstep] <;> rfl

/-! ## Step-4 regex lemmas -/

theorem regexApplyRule_getCells_ne (targets sources cols : List String)
    (f : Frame) (rule : String × List String) (col : String)
    (h : rule.1 ≠ col) :
    getCells (regexApplyRule targets sources cols f rule) col =
      getCells f col := by
  unfold regexApplyRule
  split_ifs <;>
    first
      | rfl
      | exact getCells_mapColumn_ne rule.1 _ f col fun e => h e.symm

theorem regexFold_getCells_of_notmem (rules : List (String × List String))
    (targets sources cols : List String) (f : Frame) (col : String)
    (h : ∀ r ∈ rules, r.1 ≠ col) :
    getCells (rules.foldl (regexApplyRule targets sources cols) f) col =
      getCells f col := by
  induction rules generalizing f with
  | nil => rfl
  | cons r rest ih =>
    simp only [List.foldl_cons]
    rw [ih _ fun q hq => h q (List.mem_cons_of_mem r hq)]
    exact regexApplyRule_getCells_ne _ _ _ _ _ _
      (h r (List.mem_cons_self r rest))

theorem regexFold_getCells_skip (rules : List (String × List String))
    (targets sources cols : List String) (f : Frame) (col : String)
    (h : col ∈ targets ∨ col ∈ sources) :
    getCells (rules.foldl (regexApplyRule targets sources cols) f) col =
      getCells f col := by
  induction rules generalizing f with
  | nil => rfl
  | cons r rest ih =>
    simp only [List.foldl_cons]
    rw [ih]
    by_cases hr : r.1 = col
    · subst hr
      unfold regexApplyRule
      rcases h with h | h
      · cases he : r.2.isEmpty
        · simp [he, h]
        · simp [he]
      · cases he : r.2.isEmpty
        · by_cases ht : r.1 ∈ targets
          · simp [he, ht]
          · simp [he, ht, h]
        · simp [he]
    · exact regexApplyRule_getCells_ne _ _ _ _ _ _ hr

/-- C5: a step-4 regex rule `(col, pattern_keys)` — `col` existing, not a
target with its own regex, not a pre-cleaned source, keys unique across
rules, and the selected registry keys all character classes — rewrites each
cell: a string becomes exactly the order-preserving subsequence of its
characters in the union of the selected classes (all other characters
deleted, a sublist of the original), and a null becomes the empty string;
a rule with an empty key list is a no-op for the whole step. -/
theorem C5_regex_rule_semantics (w : Workflow)
    (targets sources : List String) (f : Frame) (col : String)
    (patterns : List String)
    (hk : (w.regex_rules.map Prod.fst).Nodup)
    (hrule : (col, patterns) ∈ w.regex_rules)
    (hne : patterns ≠ [])
    (hcol : col ∈ headerOf f)
    (hnt : col ∉ targets)
    (hns : col ∉ sources)
    (hclass : altsClassOnly (combinePatterns patterns) = true) :
    getCells (regexStep w targets sources (headerOf f) f) col =
      (getCells f col).map
        (List.map (regexCleanCell (combinePatterns patterns))) ∧
    (∀ s : Str, regexCleanCell (combinePatterns patterns) (PValue.vstr s) =
      PValue.vstr (s.filter (altsUnion (combinePatterns patterns))) ∧
      (s.filter (altsUnion (combinePatterns patterns))).Sublist s) ∧
    regexCleanCell (combinePatterns patterns) PValue.vnull =
      PValue.vstr [] ∧
    (∀ (w₀ : Workflow) (t s u : List String) (g : Frame),
      (∀ r ∈ w₀.regex_rules, r.2 = []) →
      regexStep w₀ t s u g = g) := by
  refine ⟨?_, ?_, ?_, ?_⟩
  · obtain ⟨l₁, l₂, hsplit⟩ := List.append_of_mem hrule
    have hnd := hk
    rw [hsplit, List.map_append, List.map_cons] at hnd
    rw [List.nodup_append] at hnd
    obtain ⟨hnd1, hnd2, hdisj⟩ := hnd
    have hnotl₁ : ∀ r ∈ l₁, r.1 ≠ col := by
      intro r hr he
      have hm : r.1 ∈ l₁.map Prod.fst := List.mem_map_of_mem Prod.fst hr
      rw [he] at hm
      exact hdisj hm (List.mem_cons_self _ _)
    have hnotl₂ : ∀ r ∈ l₂, r.1 ≠ col := by
      intro r hr he
      have hm : r.1 ∈ l₂.map Prod.fst := List.mem_map_of_mem Prod.fst hr
      rw [he] at hm
      exact (List.nodup_cons.mp hnd2).1 hm
    unfold regexStep
    rw [hsplit, List.foldl_append, List.foldl_cons]
    rw [regexFold_getCells_of_notmem _ _ _ _ _ _ hnotl₂]
    have hbase := regexFold_getCells_of_notmem l₁ targets sources
      (headerOf f) f col hnotl₁
    have hstep : regexApplyRule targets sources (headerOf f)
        (l₁.foldl (regexApplyRule targets sources (headerOf f)) f)
        (col, patterns) =
        mapColumn col (regexCleanCell (combinePatterns patterns))
          (l₁.foldl (regexApplyRule targets sources (headerOf f)) f) := by
      unfold regexApplyRule
      have hpe : patterns.isEmpty = false := by
        cases patterns with
        | nil => exact absurd rfl hne
        | cons a l => rfl
      simp [hpe, hnt, hns, hcol]
    rw [hstep, getCells_mapColumn_self, hbase]
  · intro s
    constructor
    · simp [regexCleanCell, cellText, extractAllJoin_classes hclass]
    · exact List.filter_sublist s
  · simp [regexCleanCell, cellText, extractAllJoin_classes hclass]
  · intro w₀ t s u g hall
    unfold regexStep
    have H : ∀ (rules : List (String × List String)) (g : Frame),
        (∀ r ∈ rules, r.2 = []) →
        rules.foldl (regexApplyRule t s u) g = g := by
      intro rules
      induction rules with
      | nil => intro g _; rfl
      | cons r rest ih =>
        intro g hall2
        simp only [List.foldl_cons]
        have hre : r.2 = [] := hall2 r (List.mem_cons_self r rest)
        have hg : regexApplyRule t s u g r = g := by
          unfold regexApplyRule
          simp [hre]
        rw [hg]
        exact ih g fun q hq => hall2 q (List.mem_cons_of_mem r hq)
    exact H w₀.regex_rules g hall

/-! ## Step-1 pre-clean lemmas -/

theorem headerOf_mapColumn (n : String) (g : PValue → PValue) (f : Frame) :
    headerOf (mapColumn n g f) = headerOf f := by
  unfold headerOf mapColumn
  rw [List.map_map]
  refine List.map_congr_left fun p _ => ?_
  by_cases hp : p.1 = n <;> simp [hp]

theorem headerOf_foldl_guardMap (g : PValue → PValue) (P : String → Bool)
    (names : List String) (f : Frame) :
    headerOf
      (names.foldl (fun acc nm => if P nm then mapColumn nm g acc else acc) f) =
      headerOf f := by
  induction names generalizing f with
  | nil => rfl
  | cons n rest ih =>
    simp only [List.foldl_cons]
    rw [ih]
    cases hP : P n
    · simp only [hP, Bool.false_eq_true, if_false]
    · simp only [hP, if_true]
      exact headerOf_mapColumn n g f

/-- Step 2 on a workflow with exactly one concatenation entry whose sources
all exist: the step is one `with_columns` of the row-wise concatenation. -/
theorem concatStep_single (w : Workflow) (e : ConcatEntry) (f : Frame)
    (hw : w.concatenations = [e]) (hne : e.source_columns ≠ [])
    (hsub : ∀ s ∈ e.source_columns, (headerOf f).contains s = true) :
    concatStep w (headerOf f) f =
      setColumn f e.name
        (concatCells e.separator.toList
          (e.source_columns.map (getCellsD f))) := by
  have hfilter : e.source_columns.filter ((headerOf f).contains ·) =
      e.source_columns :=
    List.filter_eq_self.mpr hsub
  simp only [concatStep, hw, List.foldl_cons, List.foldl_nil, hfilter]
  have hvalid : (e.source_columns != []) = true := by simpa using hne
  simp only [hvalid, beq_self_eq_true, Bool.and_self, Bool.true_and, if_true]

theorem foldl_guardMap_notmem (g : PValue → PValue) (P : String → Bool)
    (names : List String) (f : Frame) (col : String) (h : col ∉ names) :
    getCells
      (names.foldl (fun f n => if P n then mapColumn n g f else f) f) col =
      getCells f col := by
  induction names generalizing f with
  | nil => rfl
  | cons n rest ih =>
    have hne : n ≠ col := fun e => h (e ▸ List.mem_cons_self n rest)
    simp only [List.foldl_cons]
    rw [ih _ fun hm => h (List.mem_cons_of_mem _ hm)]
    cases hP : P n
    · simp only [hP, Bool.false_eq_true, if_false]
    · simp only [hP, if_true]
      exact getCells_mapColumn_ne n g f col fun e => hne e.symm

theorem foldl_guardMap_mem (g : PValue → PValue) (P : String → Bool)
    (names : List String) (f : Frame) (col : String)
    (hnd : names.Nodup) (hmem : col ∈ names) (hP : P col = true) :
    getCells
      (names.foldl (fun f n => if P n then mapColumn n g f else f) f) col =
      (getCells f col).map (List.map g) := by
  induction names generalizing f with
  | nil => simp at hmem
  | cons n rest ih =>
    simp only [List.foldl_cons]
    rcases List.mem_cons.mp hmem with heq | hmemr
    · subst heq
      have hnr : col ∉ rest := (List.nodup_cons.mp hnd).1
      rw [foldl_guardMap_notmem g P rest _ col hnr]
      simp only [hP, if_true]
      exact getCells_mapColumn_self col g f
    · have hne : n ≠ col := fun e => (List.nodup_cons.mp hnd).1 (e ▸ hmemr)
      rw [ih _ (List.nodup_cons.mp hnd).2 hmemr]
      congr 1
      cases hPn : P n
      · simp only [hPn, Bool.false_eq_true, if_false]
      · simp only [hPn, if_true]
        exact getCells_mapColumn_ne n g f col fun e => hne e.symm

/-- A workflow holding one concatenation entry and a set of regex rules —
the configuration at stake in the pre-clean/concat interaction. -/
def singleConcatWorkflow (N : String) (srcs : List String) (sep : String)
    (rules : List (String × List String)) : Workflow :=
  { concatenations := [⟨N, srcs, sep⟩], regex_rules := rules }

/-- C1 (counterexample): for the concat target `fio` with rule
`cyrillic_common` and separator `" "`, the engine produces
`"Иван Петров"` (the pre-cleaned sources joined by the raw separator),
whereas the claimed equality with the keep-filter applied after
concatenation would give `"ИванПетров"` — the space is not in the kept
class, so the two sides differ. -/
theorem C1_separator_counterexample :
    getCells
      (concatStep
        (singleConcatWorkflow "fio" ["first", "last"] " "
          [("fio", ["cyrillic_common"])])
        (headerOf [("first", [PValue.vstr "Иван".toList]),
          ("last", [PValue.vstr "Петров".toList])])
        (precleanStep
          (singleConcatWorkflow "fio" ["first", "last"] " "
            [("fio", ["cyrillic_common"])])
          (headerOf [("first", [PValue.vstr "Иван".toList]),
            ("last", [PValue.vstr "Петров".toList])])
          [("first", [PValue.vstr "Иван".toList]),
            ("last", [PValue.vstr "Петров".toList])])) "fio" =
      some [PValue.vstr "Иван Петров".toList] ∧
    extractAllJoin (combinePatterns ["cyrillic_common"])
      "Иван Петров".toList = "ИванПетров".toList ∧
    "Иван Петров".toList ≠ "ИванПетров".toList := by
  exact ⟨rfl, by decide, by decide⟩

/-- C1 (amended): for a workflow with a single concatenation entry whose
target `N` carries a regex rule with at least one registry key, the output
column `N` after steps 1–2 equals the concatenation of the *pre-cleaned*
sources joined by the *raw* separator (which equals cleaning the target
after concatenation only when every separator character is kept by the
rule); each source column is cleaned exactly once — step 1 transforms it
once, and step 4 skips both the pre-cleaned sources and the target. -/
theorem C1_target_regex_concat_amended (w : Workflow) (N : String)
    (srcs : List String) (sep : String) (keys : List String) (f : Frame)
    (hconc : w.concatenations = [⟨N, srcs, sep⟩])
    (hN : N ≠ "")
    (hkeys : alookup w.regex_rules N = some keys)
    (halts : combinePatterns keys ≠ [])
    (hsub : ∀ s ∈ srcs, s ∈ headerOf f)
    (hnodup : srcs.Nodup) (hne : srcs ≠ [])
    (hNs : N ∉ srcs) :
    getCells
      (concatStep w (headerOf f) (precleanStep w (headerOf f) f)) N =
      some (concatCells sep.toList
        (srcs.map fun s =>
          (getCellsD f s).map (regexCleanCell (combinePatterns keys)))) ∧
    (∀ s ∈ srcs,
      getCells
        (concatStep w (headerOf f) (precleanStep w (headerOf f) f)) s =
        (getCells f s).map
          (List.map (regexCleanCell (combinePatterns keys)))) ∧
    (∀ (cols : List String) (g : Frame), ∀ s ∈ srcs,
      getCells
        (regexStep w (targetsWithRegex w)
          (sourcesPrecleanByTargetRegex w (headerOf f)) cols g) s =
        getCells g s) ∧
    (∀ (cols : List String) (g : Frame),
      getCells
        (regexStep w (targetsWithRegex w)
          (sourcesPrecleanByTargetRegex w (headerOf f)) cols g) N =
        getCells g N) := by
  have hkne : keys ≠ [] := by
    intro e
    exact halts (by simp [e, combinePatterns])
  have htarget : isRegexTarget w N = true := by
    simp only [isRegexTarget, hkeys, Option.getD_some]
    simp [bne_iff_ne, hN, hkne]
  have htargets : targetsWithRegex w = [N] := by
    unfold targetsWithRegex
    rw [hconc]
    simp [htarget]
  have hcontains : ∀ s ∈ srcs, (headerOf f).contains s = true := by
    intro s hs
    simpa using hsub s hs
  have hfilter : srcs.filter ((headerOf f).contains ·) = srcs :=
    List.filter_eq_self.mpr hcontains
  have hsources : sourcesPrecleanByTargetRegex w (headerOf f) = srcs := by
    unfold sourcesPrecleanByTargetRegex
    rw [hconc]
    simp [htarget, hfilter]
    exact hsub
  have hpre : precleanStep w (headerOf f) f =
      srcs.foldl (fun acc src =>
        if (sourcesPrecleanByTargetRegex w (headerOf f)).contains src then
          mapColumn src (regexCleanCell (combinePatterns keys)) acc
        else acc) f := by
    unfold precleanStep
    rw [hconc]
    simp only [List.foldl_cons, List.foldl_nil]
    rw [htargets]
    have h1 : (([N] : List String).contains N) = true := by simp
    simp only [h1, Bool.not_true, Bool.false_eq_true, if_false]
    simp only [hkeys, Option.getD_some]
    have h2 : (combinePatterns keys).isEmpty = false := by
      cases hv : combinePatterns keys
      · exact absurd hv halts
      · rfl
    simp only [h2, Bool.false_eq_true, if_false]
  have hheader : headerOf (precleanStep w (headerOf f) f) = headerOf f := by
    rw [hpre]
    exact headerOf_foldl_guardMap _ _ _ _
  have hpreMem : ∀ s ∈ srcs,
      getCells (precleanStep w (headerOf f) f) s =
      (getCells f s).map (List.map (regexCleanCell (combinePatterns keys))) := by
    intro s hs
    rw [hpre]
    refine foldl_guardMap_mem (regexCleanCell (combinePatterns keys))
      (fun src => (sourcesPrecleanByTargetRegex w (headerOf f)).contains src)
      srcs f s hnodup hs ?_
    rw [hsources]
    simpa using hs
  have hconcat : concatStep w (headerOf f) (precleanStep w (headerOf f) f) =
      setColumn (precleanStep w (headerOf f) f) N
        (concatCells sep.toList
          (srcs.map (getCellsD (precleanStep w (headerOf f) f)))) := by
    have := concatStep_single w ⟨N, srcs, sep⟩
      (precleanStep w (headerOf f) f) hconc hne
      (by
        intro s hs
        rw [hheader]
        exact hcontains s hs)
    rw [hheader] at this
    exact this
  have hgetD : srcs.map (getCellsD (precleanStep w (headerOf f) f)) =
      srcs.map fun s =>
        (getCellsD f s).map (regexCleanCell (combinePatterns keys)) := by
    refine List.map_congr_left fun s hs => ?_
    obtain ⟨cs, hcs⟩ := getCells_isSome_of_contains f s (hcontains s hs)
    simp [getCellsD, hpreMem s hs, hcs]
  refine ⟨?_, ?_, ?_, ?_⟩
  · rw [hconcat, getCells_setColumn_self, hgetD]
  · intro s hs
    have hsN : s ≠ N := fun e => hNs (by rw [← e]; exact hs)
    rw [hconcat, getCells_setColumn_ne _ _ _ _ hsN, hpreMem s hs]
  · intro cols g s hs
    refine regexFold_getCells_skip _ _ _ _ _ _ (Or.inr ?_)
    rw [hsources]
    exact hs
  · intro cols g
    refine regexFold_getCells_skip _ _ _ _ _ _ (Or.inl ?_)
    rw [htargets]
    exact List.mem_cons_self N []

/-! ## Stage order (claim C2) -/

/-- The column-operator work up to the data-cleaning step (steps 1–7),
without the structure assembly and metadata injection. -/
def columnOperatorCore (w : Workflow) (f : Frame) : Frame × Workflow :=
  let avail := headerOf f
  let targets := targetsWithRegex w
  let sources := sourcesPrecleanByTargetRegex w avail
  let f1 := precleanStep w avail f
  let f2 := concatStep w avail f1
  let f3 := excludeStep w avail f2
  let updatedCols := headerOf f3
  let f4 := regexStep w targets sources updatedCols f3
  let r5 := renameStep w updatedCols f4
  (applyDataCleaning (lowercaseStep r5.1), r5.2)

/-- The stage order asserted by the specification's driver description
(column operator, then row operator — validation then dedup —, then
structure assembler and metadata injection), written from the claim's words
for comparison with the engine. -/
def claimOrderPipeline (w : Workflow) (f : Frame) : Except String Frame :=
  let r := columnOperatorCore w f
  match apply_validation r.2 r.1 with
  | .ok g =>
    .ok (addMetadataFields r.2 (applyNesting r.2 (apply_deduplication r.2 g)))
  | .error e => .error e

/-- The engine's actual stage order: the column operator *including*
structure assembly and metadata injection, then validation, then
deduplication. -/
def engineOrderPipeline (w : Workflow) (f : Frame) : Except String Frame :=
  let r := columnOperatorCore w f
  let g := addMetadataFields r.2 (applyNesting r.2 r.1)
  match apply_validation r.2 g with
  | .ok v => .ok (apply_deduplication r.2 v)
  | .error e => .error e

/-- C2 (counterexample): with `structure.main_info = ["a"]` and
`not_empty.columns = ["b"]`, the engine reshapes away column `b` *before*
validation, so the run fails with an unresolvable column reference; under
the claimed order (validation and deduplication on the flat pre-structure
columns, structure and metadata last) the same run succeeds and filters the
null row.  The two orders are therefore observably different. -/
theorem C2_stage_order_counterexample :
    process_streaming { main_info := ["a"], not_empty := ["b"] }
      [("a", [PValue.vstr "x".toList, PValue.vstr "y".toList]),
        ("b", [PValue.vnull, PValue.vstr "z".toList])] =
      Except.error "ColumnNotFoundError" ∧
    claimOrderPipeline { main_info := ["a"], not_empty := ["b"] }
      [("a", [PValue.vstr "x".toList, PValue.vstr "y".toList]),
        ("b", [PValue.vnull, PValue.vstr "z".toList])] =
      Except.ok [("a", [PValue.vstr "y".toList]),
        ("additional_info", [PValue.vnull]),
        ("year", [PValue.vint 0]),
        ("country_code", [PValue.vstr "ru".toList])] ∧
    (Except.error "ColumnNotFoundError" ≠
      (Except.ok [("a", [PValue.vstr "y".toList]),
        ("additional_info", [PValue.vnull]),
        ("year", [PValue.vint 0]),
        ("country_code", [PValue.vstr "ru".toList])] :
          Except String Frame)) := by
  refine ⟨rfl, rfl, fun h => ?_⟩
  exact absurd h (by simp)

/-- C2 (amended): the engine applies the column operator — which itself
ends with the structure assembler and the metadata-field injection — then
the not-null validation, then deduplication; validation and deduplication
therefore observe the post-structure schema, including the `year` and
`country_code` columns. -/
theorem C2_stage_order_amended (w : Workflow) (f : Frame) :
    process_streaming w f = engineOrderPipeline w f := rfl

/-! ## Witnesses -/

theorem C3_concat_amended_witness :
    getCells
      (concatStep ({ concatenations := [⟨"full", ["a", "b"], "-"⟩] } : Workflow)
        (headerOf [("a", [PValue.vstr "x".toList]),
          ("b", [PValue.vstr "y".toList])])
        [("a", [PValue.vstr "x".toList]), ("b", [PValue.vstr "y".toList])])
      "full" = some [PValue.vstr "x-y".toList] := by
  have h := (C3_concat_amended
    [("a", [PValue.vstr "x".toList]), ("b", [PValue.vstr "y".toList])]
    ⟨"full", ["a", "b"], "-"⟩
    { concatenations := [⟨"full", ["a", "b"], "-"⟩] }
    rfl (by decide) (by decide)).1
  exact h.trans (by rfl)

theorem C7_witness :
    PValue.vstr "x".toList = PValue.vnull ∨
    ∃ s, PValue.vstr "x".toList = PValue.vstr s ∧
      EMPTY_TOKENS.contains (cleanStep8 s) = false :=
  (C7_empty_token_canonicalisation
    [("a", [PValue.vstr " x ".toList, PValue.vnull])] "a"
    [PValue.vstr "x".toList, PValue.vnull] rfl (by decide)).1
    (PValue.vstr "x".toList) (List.mem_cons_self _ _)

theorem C9_witness :
    regexCleanCell (combinePatterns ["bogus_key"]) PValue.vnull =
      PValue.vstr [] :=
  (C9_unknown_keys_ignored ["bogus_key"]).2 (by decide) PValue.vnull

theorem C10_witness :
    getCells
      (applyNesting
        { main_info := ["id", "additional_info"],
          additional_info := [AddItem.field "phone",
            AddItem.group [("address", ["city", "street"])]] }
        [("id", [PValue.vstr "1".toList]),
          ("phone", [PValue.vstr "p".toList]),
          ("city", [PValue.vstr "c".toList]),
          ("street", [PValue.vstr "s".toList])]) "additional_info" =
      some [PValue.vstruct
        [("phone", PValue.vstr "p".toList),
          ("address", PValue.vstruct
            [("city", PValue.vstr "c".toList),
              ("street", PValue.vstr "s".toList)])]] := by
  have h := (C10_nesting_additional_info
    { main_info := ["id", "additional_info"],
      additional_info := [AddItem.field "phone",
        AddItem.group [("address", ["city", "street"])]] }
    [("id", [PValue.vstr "1".toList]),
      ("phone", [PValue.vstr "p".toList]),
      ("city", [PValue.vstr "c".toList]),
      ("street", [PValue.vstr "s".toList])] (by simp)).1
  exact h.trans (by rfl)

theorem C5_witness :
    getCells
      (regexStep ({ regex_rules := [("phone", ["digits"])] } : Workflow) [] []
        (headerOf [("phone",
          [PValue.vstr "+7 (999) 123-45-67".toList, PValue.vnull])])
        [("phone", [PValue.vstr "+7 (999) 123-45-67".toList, PValue.vnull])])
      "phone" =
      some [PValue.vstr "79991234567".toList, PValue.vstr []] := by
  have h := (C5_regex_rule_semantics
    ({ regex_rules := [("phone", ["digits"])] } : Workflow) [] []
    [("phone", [PValue.vstr "+7 (999) 123-45-67".toList, PValue.vnull])]
    "phone" ["digits"] (by decide) (by decide) (by decide) (by decide)
    (by decide) (by decide) rfl).1
  exact h.trans (by rfl)

theorem C6_witness :
    substName
      (validRenames
        { display_names := [("name", "full_name")],
          dedup_unique := ["name"], not_empty := ["name"],
          main_info := ["name", "additional_info"] }
        ["name"]) "name" = "full_name" :=
  (C6_rename_propagation_amended
    { display_names := [("name", "full_name")], dedup_unique := ["name"],
      not_empty := ["name"], main_info := ["name", "additional_info"] }
    ["name"] [("name", [PValue.vstr "x".toList])] "name" "full_name"
    (by simp) (by simp) (by simp) (by simp)).1

theorem C1_witness :
    getCells
      (concatStep
        { concatenations := [⟨"fio", ["first", "last"], " "⟩],
          regex_rules := [("fio", ["cyrillic_common"])] }
        (headerOf [("first", [PValue.vstr "Иван".toList]),
          ("last", [PValue.vstr "Петров".toList])])
        (precleanStep
          { concatenations := [⟨"fio", ["first", "last"], " "⟩],
            regex_rules := [("fio", ["cyrillic_common"])] }
          (headerOf [("first", [PValue.vstr "Иван".toList]),
            ("last", [PValue.vstr "Петров".toList])])
          [("first", [PValue.vstr "Иван".toList]),
            ("last", [PValue.vstr "Петров".toList])])) "fio" =
      some [PValue.vstr "Иван Петров".toList] := by
  have h := (C1_target_regex_concat_amended
    { concatenations := [⟨"fio", ["first", "last"], " "⟩],
      regex_rules := [("fio", ["cyrillic_common"])] }
    "fio" ["first", "last"] " " ["cyrillic_common"]
    [("first", [PValue.vstr "Иван".toList]),
      ("last", [PValue.vstr "Петров".toList])]
    rfl (by simp) rfl
    (by
      intro h
      have hl : (combinePatterns ["cyrillic_common"]).length = 1 := rfl
      rw [h] at hl
      exact absurd hl (by simp))
    (by decide) (by decide) (by decide) (by decide)).1
  exact h.trans (by rfl)

/-! ## Idempotence of the cleaning chain (claim C8)

The cleaning chain is not idempotent in general: the deletion substeps
(invisible formatters, ASCII controls) can splice together a literal token
such as `&nbsp;` that the second pass then replaces.  On strings free of
those deleted characters, a fixed-point argument goes through; the lemmas
below establish it. -/

/-- No two adjacent whitespace characters (the strings on which the
`\s{2,}` collapse is the identity). -/
def noAdjWs : Str → Bool
  | [] => true
  | [_] => true
  | c :: d :: rest => !(wsChar c && wsChar d) && noAdjWs (d :: rest)

theorem noAdjWs_tail {c : Char} {l : Str} (h : noAdjWs (c :: l) = true) :
    noAdjWs l = true := by
  cases l with
  | nil => rfl
  | cons d rest =>
    simp only [noAdjWs, Bool.and_eq_true] at h
    exact h.2

theorem collapseWsGo_eq_self {c : Char} {rest : Str}
    (h : noAdjWs (c :: rest) = true) : collapseWsGo c rest = c :: rest := by
  induction rest generalizing c with
  | nil => rfl
  | cons d rest' ih =>
    simp only [noAdjWs, Bool.and_eq_true] at h
    unfold collapseWsGo
    rw [if_neg (by
      intro hb
      simp only [Bool.and_eq_true] at hb
      have h1 := h.1
      rw [hb.1, hb.2] at h1
      simp at h1)]
    rw [ih h.2]

theorem cleanStep7_eq_self {l : Str} (h : noAdjWs l = true) :
    cleanStep7 l = l := by
  cases l with
  | nil => rfl
  | cons c rest => exact collapseWsGo_eq_self h

theorem collapseWsGo_cons_of_not_ws {d : Char} (rest : Str)
    (hd : wsChar d = false) :
    ∃ t, collapseWsGo d rest = d :: t := by
  cases rest with
  | nil => exact ⟨[], rfl⟩
  | cons e rest' =>
    unfold collapseWsGo
    rw [if_neg (by simp [hd])]
    exact ⟨_, rfl⟩

theorem noAdjWs_cons_of_not_ws {c : Char} {l : Str} (hc : wsChar c = false)
    (h : noAdjWs l = true) : noAdjWs (c :: l) = true := by
  cases l with
  | nil => rfl
  | cons d rest =>
    simp only [noAdjWs, Bool.and_eq_true]
    exact ⟨by simp [hc], h⟩

theorem noAdjWs_collapseWsGo (c : Char) (rest : Str) :
    noAdjWs (collapseWsGo c rest) = true := by
  induction rest generalizing c with
  | nil => rfl
  | cons d rest' ih =>
    unfold collapseWsGo
    by_cases hws : wsChar c = true ∧ wsChar d = true
    · rw [if_pos (by simp [hws.1, hws.2])]
      exact ih ' '
    · rw [if_neg (by
        intro hb
        simp only [Bool.and_eq_true] at hb
        exact hws hb)]
      by_cases hc : wsChar c = true
      · have hd : wsChar d = false := by
          cases hv : wsChar d
          · rfl
          · exact absurd ⟨hc, hv⟩ hws
        obtain ⟨t, ht⟩ := collapseWsGo_cons_of_not_ws rest' hd
        rw [ht]
        have hgo : noAdjWs (d :: t) = true := ht ▸ ih d
        simp only [noAdjWs, Bool.and_eq_true]
        exact ⟨by simp [hd], hgo⟩
      · have hc' : wsChar c = false := by
          cases hv : wsChar c
          · rfl
          · exact absurd hv hc
        exact noAdjWs_cons_of_not_ws hc' (ih d)

theorem noAdjWs_cleanStep7 (l : Str) : noAdjWs (cleanStep7 l) = true := by
  cases l with
  | nil => rfl
  | cons c rest => exact noAdjWs_collapseWsGo c rest

theorem noAdjWs_suffix {t l : Str} (h : t <:+ l) (hl : noAdjWs l = true) :
    noAdjWs t = true := by
  induction l with
  | nil =>
    rw [List.suffix_nil.mp h]
    rfl
  | cons c rest ih =>
    rcases List.suffix_cons_iff.mp h with heq | hsuf
    · rw [heq]; exact hl
    · exact ih hsuf (noAdjWs_tail hl)

theorem noAdjWs_prefix {p l : Str} (h : p <+: l) (hl : noAdjWs l = true) :
    noAdjWs p = true := by
  induction p generalizing l with
  | nil => rfl
  | cons x p' ih =>
    obtain ⟨t, ht⟩ := h
    subst ht
    cases p' with
    | nil => rfl
    | cons y p'' =>
      simp only [List.cons_append] at hl
      simp only [noAdjWs, Bool.and_eq_true] at hl ⊢
      refine ⟨hl.1, ?_⟩
      exact ih ⟨t, rfl⟩ hl.2

theorem noAdjWs_infix {t l : Str} (h : t <:+: l) (hl : noAdjWs l = true) :
    noAdjWs t = true := by
  obtain ⟨u, hu, hsuf⟩ := List.infix_iff_prefix_suffix.mp h
  exact noAdjWs_prefix hu (noAdjWs_suffix hsuf hl)

theorem dropWhile_head_false {p : Char → Bool} {l t : Str} {a : Char}
    (h : l.dropWhile p = a :: t) : p a = false := by
  induction l with
  | nil => simp at h
  | cons x xs ih =>
    rw [List.dropWhile_cons] at h
    by_cases hx : p x = true
    · rw [if_pos hx] at h
      exact ih h
    · rw [if_neg hx] at h
      cases h
      cases hv : p a
      · rfl
      · exact absurd hv hx

theorem infix_cleanStep8 (l : Str) : cleanStep8 l <:+: l := by
  unfold cleanStep8
  have h1 : ((l.dropWhile wsChar).reverse.dropWhile wsChar).reverse <+:
      (l.dropWhile wsChar).reverse.reverse :=
    List.reverse_prefix.mpr (List.dropWhile_suffix wsChar)
  rw [List.reverse_reverse] at h1
  exact List.infix_iff_prefix_suffix.mpr
    ⟨l.dropWhile wsChar, h1, List.dropWhile_suffix wsChar⟩

theorem mem_cleanStep8 {c : Char} {l : Str} (h : c ∈ cleanStep8 l) :
    c ∈ l :=
  (infix_cleanStep8 l).subset h

theorem cleanStep8_head_not_ws {l : Str} {c : Char} {t : Str}
    (h : cleanStep8 l = c :: t) : wsChar c = false := by
  have hpre : cleanStep8 l <+: l.dropWhile wsChar := by
    unfold cleanStep8
    have h1 : ((l.dropWhile wsChar).reverse.dropWhile wsChar).reverse <+:
        (l.dropWhile wsChar).reverse.reverse :=
      List.reverse_prefix.mpr (List.dropWhile_suffix wsChar)
    rwa [List.reverse_reverse] at h1
  obtain ⟨t2, ht2⟩ := hpre
  rw [h] at ht2
  exact dropWhile_head_false ht2.symm

theorem cleanStep8_idem (l : Str) :
    cleanStep8 (cleanStep8 l) = cleanStep8 l := by
  have hL1 : (cleanStep8 l).dropWhile wsChar = cleanStep8 l := by
    cases hB : cleanStep8 l with
    | nil => rfl
    | cons c t =>
      rw [List.dropWhile_cons,
        if_neg (by simp [cleanStep8_head_not_ws hB])]
  have hrevB : (cleanStep8 l).reverse =
      ((l.dropWhile wsChar).reverse).dropWhile wsChar := by
    unfold cleanStep8
    rw [List.reverse_reverse]
  show ((((cleanStep8 l).dropWhile wsChar).reverse).dropWhile wsChar).reverse =
    cleanStep8 l
  rw [hL1, hrevB, List.dropWhile_idempotent, ← hrevB, List.reverse_reverse]

theorem mem_iff_infix_singleton {c : Char} {l : Str} :
    c ∈ l ↔ [c] <:+: l := by
  constructor
  · intro h
    obtain ⟨s, t, rfl⟩ := List.append_of_mem h
    exact ⟨s, t, by simp⟩
  · rintro ⟨u, v, rfl⟩
    simp

theorem mem_replaceScan {repl c : Char} {alts : List RegexAlt} :
    ∀ {fuel : Nat} {s : Str}, s.length ≤ fuel →
    c ∈ replaceScan repl fuel alts s → c = repl ∨ c ∈ s := by
  intro fuel
  induction fuel with
  | zero =>
    intro s hs h
    have hnil : s = [] := List.length_eq_zero.mp (Nat.le_zero.mp hs)
    subst hnil
    simp [replaceScan] at h
  | succ n ih =>
    intro s hs h
    cases s with
    | nil => simp [replaceScan] at h
    | cons c0 rest =>
      simp only [replaceScan] at h
      cases hm : firstAltMatch alts (c0 :: rest) with
      | some m =>
        rw [hm] at h
        rcases List.mem_cons.mp h with heq | hmem
        · exact Or.inl heq
        · have hlen : (List.drop (m.length - 1) rest).length ≤ n := by
            rw [List.length_drop]
            exact Nat.le_trans (Nat.sub_le _ _)
              (Nat.succ_le_succ_iff.mp hs)
          rcases ih hlen hmem with h1 | h1
          · exact Or.inl h1
          · exact Or.inr (List.mem_cons_of_mem c0 (List.mem_of_mem_drop h1))
      | none =>
        rw [hm] at h
        rcases List.mem_cons.mp h with heq | hmem
        · exact Or.inr (heq ▸ List.mem_cons_self c0 rest)
        · have hlen : rest.length ≤ n := Nat.succ_le_succ_iff.mp hs
          rcases ih hlen hmem with h1 | h1
          · exact Or.inl h1
          · exact Or.inr (List.mem_cons_of_mem c0 h1)

theorem firstAltMatch_eq_none {alts : List RegexAlt} {s : Str}
    (h : ∀ a ∈ alts, altMatch s a = none) :
    firstAltMatch alts s = none := by
  induction alts with
  | nil => rfl
  | cons a rest ih =>
    simp only [firstAltMatch]
    rw [h a (List.mem_cons_self a rest)]
    exact ih fun b hb => h b (List.mem_cons_of_mem a hb)

theorem firstAltMatch_isSome_of_alt {alts : List RegexAlt} {s m : Str}
    {a : RegexAlt} (ha : a ∈ alts) (hm : altMatch s a = some m) :
    firstAltMatch alts s ≠ none := by
  induction alts with
  | nil => simp at ha
  | cons b rest ih =>
    simp only [firstAltMatch]
    cases hb : altMatch s b with
    | some m' => simp
    | none =>
      rcases List.mem_cons.mp ha with heq | hmem
      · rw [heq] at hm
        rw [hm] at hb
        cases hb
      · exact ih hmem

theorem altMatch_lit_none {t s : Str} (h : ¬ t <:+: s) :
    altMatch s (RegexAlt.lit t) = none := by
  cases t with
  | nil => rfl
  | cons t0 ts =>
    show (if (t0 :: ts).isPrefixOf s = true then some (t0 :: ts) else none) =
      none
    rw [if_neg]
    intro hp
    exact h ((List.isPrefixOf_iff_prefix.mp hp).isInfix)

theorem replaceScan_eq_self {repl : Char} {alts : List RegexAlt}
    (hcls : ∀ a ∈ alts, ∃ t, a = RegexAlt.lit t) :
    ∀ {fuel : Nat} {s : Str}, s.length ≤ fuel →
    (∀ t, RegexAlt.lit t ∈ alts → ¬ t <:+: s) →
    replaceScan repl fuel alts s = s := by
  intro fuel
  induction fuel with
  | zero =>
    intro s hs _
    have hnil : s = [] := List.length_eq_zero.mp (Nat.le_zero.mp hs)
    subst hnil
    rfl
  | succ n ih =>
    intro s hs hno
    cases s with
    | nil => rfl
    | cons c rest =>
      have hnone : firstAltMatch alts (c :: rest) = none := by
        refine firstAltMatch_eq_none fun a ha => ?_
        obtain ⟨t, rfl⟩ := hcls a ha
        exact altMatch_lit_none (hno t ha)
      simp only [replaceScan, hnone]
      rw [ih (Nat.succ_le_succ_iff.mp hs)
        fun t ht hinf => hno t ht (hinf.trans (List.infix_cons (List.infix_refl rest)))]

theorem prefix_replaceScan {repl : Char} {alts : List RegexAlt} :
    ∀ {fuel : Nat} {s p : Str}, s.length ≤ fuel → repl ∉ p →
    p <+: replaceScan repl fuel alts s → p <+: s := by
  intro fuel
  induction fuel with
  | zero =>
    intro s p hs _ h
    have hnil : s = [] := List.length_eq_zero.mp (Nat.le_zero.mp hs)
    subst hnil
    simpa [replaceScan] using h
  | succ n ih =>
    intro s p hs hrp h
    cases s with
    | nil =>
      simp only [replaceScan] at h
      exact h
    | cons c rest =>
      simp only [replaceScan] at h
      cases hm : firstAltMatch alts (c :: rest) with
      | some m =>
        rw [hm] at h
        cases p with
        | nil => exact List.nil_prefix
        | cons p0 p' =>
          have := (List.cons_prefix_cons.mp h).1
          exact absurd (this ▸ List.mem_cons_self p0 p') hrp
      | none =>
        rw [hm] at h
        cases p with
        | nil => exact List.nil_prefix
        | cons p0 p' =>
          obtain ⟨heq, hpre⟩ := List.cons_prefix_cons.mp h
          subst heq
          have hp' : p' <+: rest :=
            ih (Nat.succ_le_succ_iff.mp hs)
              (fun hmem => hrp (List.mem_cons_of_mem _ hmem)) hpre
          exact List.cons_prefix_cons.mpr ⟨rfl, hp'⟩

theorem replaceScan_not_infix {repl : Char} {t : Str} {alts : List RegexAlt}
    (htne : t ≠ []) (hrt : repl ∉ t) (halt : RegexAlt.lit t ∈ alts) :
    ∀ {fuel : Nat} {s : Str}, s.length ≤ fuel →
    ¬ t <:+: replaceScan repl fuel alts s := by
  intro fuel
  induction fuel with
  | zero =>
    intro s hs hinf
    have : s = [] := List.length_eq_zero.mp (Nat.le_zero.mp hs)
    subst this
    exact htne (List.infix_nil.mp hinf)
  | succ n ih =>
    intro s hs hinf
    cases s with
    | nil =>
      simp only [replaceScan] at hinf
      exact htne (List.infix_nil.mp hinf)
    | cons c rest =>
      simp only [replaceScan] at hinf
      cases hm : firstAltMatch alts (c :: rest) with
      | some m =>
        rw [hm] at hinf
        rcases List.infix_cons_iff.mp hinf with hpre | hinf'
        · cases t with
          | nil => exact htne rfl
          | cons t0 t' =>
            have := (List.cons_prefix_cons.mp hpre).1
            exact hrt (this ▸ List.mem_cons_self t0 t')
        · have hlen : (List.drop (m.length - 1) rest).length ≤ n := by
            rw [List.length_drop]
            exact Nat.le_trans (Nat.sub_le _ _) (Nat.succ_le_succ_iff.mp hs)
          exact ih hlen hinf'
      | none =>
        rw [hm] at hinf
        rcases List.infix_cons_iff.mp hinf with hpre | hinf'
        · cases t with
          | nil => exact htne rfl
          | cons t0 t' =>
            obtain ⟨heq, hpre'⟩ := List.cons_prefix_cons.mp hpre
            subst heq
            have ht' : t' <+: rest :=
              prefix_replaceScan (Nat.succ_le_succ_iff.mp hs)
                (fun hmem => hrt (List.mem_cons_of_mem _ hmem)) hpre'
            have hmatch : altMatch (t0 :: rest) (RegexAlt.lit (t0 :: t')) =
                some (t0 :: t') := by
              show (if (t0 :: t').isPrefixOf (t0 :: rest) = true then
                some (t0 :: t') else none) = some (t0 :: t')
              rw [if_pos (List.isPrefixOf_iff_prefix.mpr
                (List.cons_prefix_cons.mpr ⟨rfl, ht'⟩))]
            exact firstAltMatch_isSome_of_alt halt hmatch hm
        · exact ih (Nat.succ_le_succ_iff.mp hs) hinf'

theorem prefix_map_of_no_space {g : Char → Char}
    (hg : ∀ c, g c = c ∨ g c = ' ') :
    ∀ {l p : Str}, ' ' ∉ p → p <+: l.map g → p <+: l := by
  intro l
  induction l with
  | nil =>
    intro p _ h
    simpa using h
  | cons c l' ih =>
    intro p hsp h
    cases p with
    | nil => exact List.nil_prefix
    | cons p0 p' =>
      rw [List.map_cons] at h
      obtain ⟨heq, hpre⟩ := List.cons_prefix_cons.mp h
      rcases hg c with hc | hc
      · rw [hc] at heq
        subst heq
        exact List.cons_prefix_cons.mpr
          ⟨rfl, ih (fun hm => hsp (List.mem_cons_of_mem _ hm)) hpre⟩
      · rw [hc] at heq
        exact absurd (heq ▸ List.mem_cons_self p0 p') hsp

theorem infix_map_of_no_space {g : Char → Char}
    (hg : ∀ c, g c = c ∨ g c = ' ') :
    ∀ {l t : Str}, t ≠ [] → ' ' ∉ t → t <:+: l.map g → t <:+: l := by
  intro l
  induction l with
  | nil =>
    intro t htne _ h
    simp only [List.map_nil] at h
    exact absurd (List.infix_nil.mp h) htne
  | cons c l' ih =>
    intro t htne hsp h
    rw [List.map_cons] at h
    rcases List.infix_cons_iff.mp h with hpre | hinf
    · cases t with
      | nil => exact absurd rfl htne
      | cons t0 t' =>
        obtain ⟨heq, hpre'⟩ := List.cons_prefix_cons.mp hpre
        rcases hg c with hc | hc
        · rw [hc] at heq
          subst heq
          have ht' : t' <+: l' :=
            prefix_map_of_no_space hg
              (fun hm => hsp (List.mem_cons_of_mem _ hm)) hpre'
          exact (List.cons_prefix_cons.mpr ⟨rfl, ht'⟩).isInfix
        · rw [hc] at heq
          exact absurd (heq ▸ List.mem_cons_self t0 t') hsp
    · exact (ih htne hsp hinf).trans (List.infix_cons (List.infix_refl l'))

theorem prefix_collapseWsGo :
    ∀ {rest : Str} {d : Char} {p : Str}, (∀ c ∈ p, wsChar c = false) →
    p <+: collapseWsGo d rest → p <+: d :: rest := by
  intro rest
  induction rest with
  | nil =>
    intro d p _ h
    exact h
  | cons e rest' ih =>
    intro d p hp h
    unfold collapseWsGo at h
    by_cases hws : (wsChar d && wsChar e) = true
    · rw [if_pos hws] at h
      have h2 : p <+: ' ' :: rest' := ih hp h
      cases p with
      | nil => exact List.nil_prefix
      | cons p0 p' =>
        have heq := (List.cons_prefix_cons.mp h2).1
        have hws0 : wsChar p0 = false := hp p0 (List.mem_cons_self _ _)
        rw [heq] at hws0
        exact absurd hws0 (by decide)
    · rw [if_neg hws] at h
      cases p with
      | nil => exact List.nil_prefix
      | cons p0 p' =>
        obtain ⟨heq, hpre⟩ := List.cons_prefix_cons.mp h
        subst heq
        exact List.cons_prefix_cons.mpr
          ⟨rfl, ih (fun c hc => hp c (List.mem_cons_of_mem _ hc)) hpre⟩

theorem infix_collapseWsGo {t : Str} (htne : t ≠ [])
    (ht : ∀ c ∈ t, wsChar c = false) :
    ∀ {rest : Str} {d : Char}, t <:+: collapseWsGo d rest →
    t <:+: d :: rest := by
  intro rest
  induction rest with
  | nil => intro d h; exact h
  | cons e rest' ih =>
    intro d h
    unfold collapseWsGo at h
    by_cases hws : (wsChar d && wsChar e) = true
    · rw [if_pos hws] at h
      have h2 : t <:+: ' ' :: rest' := ih h
      rcases List.infix_cons_iff.mp h2 with hpre | hinf
      · cases t with
        | nil => exact absurd rfl htne
        | cons t0 t' =>
          have heq := (List.cons_prefix_cons.mp hpre).1
          have := ht t0 (List.mem_cons_self _ _)
          rw [heq] at this
          exact absurd this (by decide)
      · exact (hinf.trans (List.infix_cons (List.infix_refl rest'))).trans
          (List.infix_cons (List.infix_refl (e :: rest')))
    · rw [if_neg hws] at h
      rcases List.infix_cons_iff.mp h with hpre | hinf
      · cases t with
        | nil => exact absurd rfl htne
        | cons t0 t' =>
          obtain ⟨heq, hpre'⟩ := List.cons_prefix_cons.mp hpre
          subst heq
          have ht' : t' <+: e :: rest' :=
            prefix_collapseWsGo
              (fun c hc => ht c (List.mem_cons_of_mem _ hc)) hpre'
          exact (List.cons_prefix_cons.mpr ⟨rfl, ht'⟩).isInfix
      · exact (ih hinf).trans (List.infix_cons (List.infix_refl (e :: rest')))

theorem infix_cleanStep7 {t l : Str} (htne : t ≠ [])
    (ht : ∀ c ∈ t, wsChar c = false) (h : t <:+: cleanStep7 l) :
    t <:+: l := by
  cases l with
  | nil => exact h
  | cons c rest => exact infix_collapseWsGo htne ht h

/-- Characters on which the cleaning chain's deletion substeps cannot fire:
no invisible formatters, and no ASCII controls other than `\n`, `\r`, `\t`
(which the chain replaces, rather than deletes). -/
def safeChar (c : Char) : Bool :=
  !invisibleChar c &&
    (!controlChar c || c == '\n' || c == '\r' || c == '\t')

/-- Decomposition of membership in a replace-if-by-space map. -/
theorem mem_map_replaceIf {P : Char → Bool} {x : Str} {c : Char}
    (h : c ∈ x.map fun b => if P b then ' ' else b) :
    c = ' ' ∨ (c ∈ x ∧ P c = false) := by
  obtain ⟨b, hb, hbc⟩ := List.mem_map.mp h
  by_cases hp : P b = true
  · rw [if_pos hp] at hbc
    exact Or.inl hbc.symm
  · rw [if_neg hp] at hbc
    subst hbc
    exact Or.inr ⟨hb, by cases hv : P b; rfl; exact absurd hv hp⟩

theorem replaceIf_no_space (P : Char → Bool) :
    ∀ c, (if P c then ' ' else c) = c ∨ (if P c then ' ' else c) = ' ' := by
  intro c
  by_cases hp : P c = true
  · exact Or.inr (if_pos hp)
  · exact Or.inl (if_neg hp)

theorem mem_collapseWsGo {c : Char} :
    ∀ {rest : Str} {d : Char}, c ∈ collapseWsGo d rest →
    c = ' ' ∨ c = d ∨ c ∈ rest := by
  intro rest
  induction rest with
  | nil =>
    intro d h
    rcases List.mem_cons.mp h with heq | hmem
    · exact Or.inr (Or.inl heq)
    · simp at hmem
  | cons e rest' ih =>
    intro d h
    unfold collapseWsGo at h
    by_cases hws : (wsChar d && wsChar e) = true
    · rw [if_pos hws] at h
      rcases ih h with h1 | h1 | h1
      · exact Or.inl h1
      · exact Or.inl h1
      · exact Or.inr (Or.inr (List.mem_cons_of_mem e h1))
    · rw [if_neg hws] at h
      rcases List.mem_cons.mp h with heq | hmem
      · exact Or.inr (Or.inl heq)
      · rcases ih hmem with h1 | h1 | h1
        · exact Or.inl h1
        · exact Or.inr (Or.inr (h1 ▸ List.mem_cons_self e rest'))
        · exact Or.inr (Or.inr (List.mem_cons_of_mem e h1))

theorem mem_cleanStep7 {c : Char} {l : Str} (h : c ∈ cleanStep7 l) :
    c = ' ' ∨ c ∈ l := by
  cases l with
  | nil => simp [cleanStep7] at h
  | cons d rest =>
    rcases mem_collapseWsGo h with h1 | h1 | h1
    · exact Or.inl h1
    · exact Or.inr (h1 ▸ List.mem_cons_self d rest)
    · exact Or.inr (List.mem_cons_of_mem d h1)

/-- Steps 1–4 of the cleaning chain (quote deletion, token replacement,
newline/tab replacement, special-space replacement). -/
def preClean4 (x : Str) : Str :=
  cleanStep4 (cleanStep3 (cleanStep2 (cleanStep1 x)))

theorem mem_preClean4_step1 {x : Str} {c : Char} (h : c ∈ preClean4 x) :
    c = ' ' ∨ c ∈ cleanStep1 x := by
  simp only [preClean4, cleanStep4] at h
  rcases mem_map_replaceIf h with h4 | ⟨h3, _⟩
  · exact Or.inl h4
  · simp only [cleanStep3] at h3
    rcases mem_map_replaceIf h3 with h4 | ⟨h2, _⟩
    · exact Or.inl h4
    · simp only [cleanStep2, replaceAllAlts] at h2
      rcases mem_replaceScan (Nat.le_refl _) h2 with h4 | h1
      · exact Or.inl h4
      · exact Or.inr h1

theorem mem_preClean4 {x : Str} {c : Char} (h : c ∈ preClean4 x) :
    c = ' ' ∨ c ∈ x := by
  rcases mem_preClean4_step1 h with h1 | h1
  · exact Or.inl h1
  · exact Or.inr (List.mem_filter.mp h1).1

theorem preClean4_not_special {x : Str} {c : Char} (h : c ∈ preClean4 x) :
    specialSpaceChar c = false := by
  simp only [preClean4, cleanStep4] at h
  rcases mem_map_replaceIf h with h4 | ⟨_, hP⟩
  · subst h4; decide
  · exact hP

theorem preClean4_not_nrt {x : Str} {c : Char} (h : c ∈ preClean4 x) :
    (c == '\n' || c == '\r' || c == '\t') = false := by
  simp only [preClean4, cleanStep4] at h
  rcases mem_map_replaceIf h with h4 | ⟨h3, _⟩
  · subst h4; decide
  · simp only [cleanStep3] at h3
    rcases mem_map_replaceIf h3 with h4 | ⟨_, hP⟩
    · subst h4; decide
    · exact hP

theorem preClean4_quote_free {x : Str} {c : Char} (h : c ∈ preClean4 x) :
    (c == '"' || c == '\'') = false := by
  rcases mem_preClean4_step1 h with h1 | h1
  · subst h1; decide
  · have := (List.mem_filter.mp h1).2
    simp only [Bool.not_eq_true', Bool.or_eq_false_iff] at this ⊢
    exact this

theorem preClean4_feff_free (x : Str) : '\uFEFF' ∉ preClean4 x := by
  intro h
  simp only [preClean4, cleanStep4] at h
  rcases mem_map_replaceIf h with h4 | ⟨h3, _⟩
  · exact absurd h4 (by decide)
  · simp only [cleanStep3] at h3
    rcases mem_map_replaceIf h3 with h4 | ⟨h2, _⟩
    · exact absurd h4 (by decide)
    · simp only [cleanStep2, replaceAllAlts] at h2
      refine replaceScan_not_infix (t := ['\uFEFF']) (by simp) (by decide)
        ?_ (Nat.le_refl _) (mem_iff_infix_singleton.mp h2)
      show RegexAlt.lit ['\uFEFF'] ∈ nbspAlts
      simp [nbspAlts]

theorem preClean4_token_free {x t : Str} (htne : t ≠ []) (hsp : ' ' ∉ t)
    (halt : RegexAlt.lit t ∈ nbspAlts) : ¬ t <:+: preClean4 x := by
  intro hinf
  simp only [preClean4, cleanStep4] at hinf
  have h3 : t <:+: cleanStep3 (cleanStep2 (cleanStep1 x)) :=
    infix_map_of_no_space (replaceIf_no_space _) htne hsp hinf
  simp only [cleanStep3] at h3
  have h2 : t <:+: cleanStep2 (cleanStep1 x) :=
    infix_map_of_no_space (replaceIf_no_space _) htne hsp h3
  simp only [cleanStep2, replaceAllAlts] at h2
  exact replaceScan_not_infix htne hsp halt (Nat.le_refl _) h2

theorem safeChar_inv {c : Char} (h : safeChar c = true) :
    invisibleChar c = false := by
  simp only [safeChar, Bool.and_eq_true, Bool.not_eq_true'] at h
  exact h.1

theorem safeChar_ctl {c : Char} (h : safeChar c = true)
    (hc : controlChar c = true) :
    (c == '\n' || c == '\r' || c == '\t') = true := by
  simp only [safeChar, Bool.and_eq_true] at h
  have h2 := h.2
  rw [hc] at h2
  simpa using h2

theorem preClean4_inv_free {x : Str} {c : Char}
    (hx : ∀ c ∈ x, safeChar c = true) (h : c ∈ preClean4 x) :
    invisibleChar c = false := by
  rcases mem_preClean4 h with h1 | h1
  · subst h1; decide
  · exact safeChar_inv (hx c h1)

theorem preClean4_ctl_free {x : Str} {c : Char}
    (hx : ∀ c ∈ x, safeChar c = true) (h : c ∈ preClean4 x) :
    controlChar c = false := by
  cases hv : controlChar c
  · rfl
  · rcases mem_preClean4 h with h1 | h1
    · rw [h1] at hv
      exact absurd hv (by decide)
    · have hnrt := safeChar_ctl (hx c h1) hv
      rw [preClean4_not_nrt h] at hnrt
      exact absurd hnrt (by decide)

/-- On inputs free of invisible formatters and of controls other than
`\n`, `\r`, `\t`, the deletion substeps 5–6 are the identity: the chain
reduces to steps 1–4 followed by whitespace collapse and strip. -/
theorem cleanChars_eq_of_safe {x : Str}
    (hsafe : ∀ c ∈ x, safeChar c = true) :
    cleanChars x = cleanStep8 (cleanStep7 (preClean4 x)) := by
  have h5 : cleanStep5 (preClean4 x) = preClean4 x := by
    simp only [cleanStep5]
    refine List.filter_eq_self.mpr fun c hc => ?_
    simp [preClean4_inv_free hsafe hc]
  have h6 : cleanStep6 (preClean4 x) = preClean4 x := by
    simp only [cleanStep6]
    refine List.filter_eq_self.mpr fun c hc => ?_
    simp [preClean4_ctl_free hsafe hc]
  show cleanStep8 (cleanStep7 (cleanStep6 (cleanStep5 (preClean4 x)))) = _
  rw [h5, h6]

/-- The cleaning chain is idempotent on strings of safe characters. -/
theorem cleanChars_idem {s : Str} (hsafe : ∀ c ∈ s, safeChar c = true) :
    cleanChars (cleanChars s) = cleanChars s := by
  set u := cleanChars s with hu0
  have hu : u = cleanStep8 (cleanStep7 (preClean4 s)) := by
    rw [hu0]
    exact cleanChars_eq_of_safe hsafe
  have humem : ∀ c ∈ u, c = ' ' ∨ c ∈ preClean4 s := by
    intro c hc
    rw [hu] at hc
    exact mem_cleanStep7 (mem_cleanStep8 hc)
  have hq : ∀ c ∈ u, (c == '"' || c == '\'') = false := by
    intro c hc
    rcases humem c hc with h | h
    · subst h; decide
    · exact preClean4_quote_free h
  have hnrt : ∀ c ∈ u, (c == '\n' || c == '\r' || c == '\t') = false := by
    intro c hc
    rcases humem c hc with h | h
    · subst h; decide
    · exact preClean4_not_nrt h
  have hspec : ∀ c ∈ u, specialSpaceChar c = false := by
    intro c hc
    rcases humem c hc with h | h
    · subst h; decide
    · exact preClean4_not_special h
  have hinv2 : ∀ c ∈ u, invisibleChar c = false := by
    intro c hc
    rcases humem c hc with h | h
    · subst h; decide
    · exact preClean4_inv_free hsafe h
  have hctl2 : ∀ c ∈ u, controlChar c = false := by
    intro c hc
    rcases humem c hc with h | h
    · subst h; decide
    · exact preClean4_ctl_free hsafe h
  have hxa0 : '\u00A0' ∉ u := by
    intro hc
    rcases humem _ hc with h | h
    · exact absurd h (by decide)
    · have := preClean4_not_special h
      exact absurd this (by decide)
  have hfeff : '\uFEFF' ∉ u := by
    intro hc
    rcases humem _ hc with h | h
    · exact absurd h (by decide)
    · exact preClean4_feff_free s h
  have htok : ∀ t : Str, t ≠ [] → ' ' ∉ t → (∀ c ∈ t, wsChar c = false) →
      RegexAlt.lit t ∈ nbspAlts → ¬ t <:+: u := by
    intro t htne hsp hws hmem hinf
    rw [hu] at hinf
    have h7 : t <:+: cleanStep7 (preClean4 s) :=
      hinf.trans (infix_cleanStep8 _)
    exact preClean4_token_free htne hsp hmem (infix_cleanStep7 htne hws h7)
  have e1 : cleanStep1 u = u := by
    simp only [cleanStep1]
    refine List.filter_eq_self.mpr fun c hc => ?_
    simp only [hq c hc]
    rfl
  have e2 : cleanStep2 u = u := by
    simp only [cleanStep2, replaceAllAlts]
    refine replaceScan_eq_self ?_ (Nat.le_refl _) ?_
    · intro a ha
      simp only [nbspAlts, List.mem_cons, List.not_mem_nil, or_false] at ha
      rcases ha with h | h | h | h | h | h <;> exact ⟨_, h⟩
    · intro t ht hinf
      simp only [nbspAlts, List.mem_cons, List.not_mem_nil, or_false,
        RegexAlt.lit.injEq] at ht
      rcases ht with h | h | h | h | h | h <;> subst h
      · exact htok _ (by simp) (by decide) (by decide)
          (by simp [nbspAlts]) hinf
      · exact htok _ (by simp) (by decide) (by decide)
          (by simp [nbspAlts]) hinf
      · exact htok _ (by simp) (by decide) (by decide)
          (by simp [nbspAlts]) hinf
      · exact htok _ (by simp) (by decide) (by decide)
          (by simp [nbspAlts]) hinf
      · exact hxa0 (mem_iff_infix_singleton.mpr hinf)
      · exact hfeff (mem_iff_infix_singleton.mpr hinf)
  have e3 : cleanStep3 u = u := by
    simp only [cleanStep3]
    refine map_id_of _ _ fun c hc => ?_
    simp [hnrt c hc]
  have e4 : cleanStep4 u = u := by
    simp only [cleanStep4]
    refine map_id_of _ _ fun c hc => ?_
    simp [hspec c hc]
  have e5 : cleanStep5 u = u := by
    simp only [cleanStep5]
    refine List.filter_eq_self.mpr fun c hc => ?_
    simp [hinv2 c hc]
  have e6 : cleanStep6 u = u := by
    simp only [cleanStep6]
    refine List.filter_eq_self.mpr fun c hc => ?_
    simp [hctl2 c hc]
  have e7 : cleanStep7 u = u := by
    refine cleanStep7_eq_self ?_
    rw [hu]
    exact noAdjWs_infix (infix_cleanStep8 _) (noAdjWs_cleanStep7 _)
  have e8 : cleanStep8 u = u := by
    rw [hu]
    exact cleanStep8_idem _
  show cleanStep8 (cleanStep7 (cleanStep6 (cleanStep5 (cleanStep4 (cleanStep3
    (cleanStep2 (cleanStep1 u))))))) = u
  rw [e1, e2, e3, e4, e5, e6, e7, e8]

/-- A cell whose content cannot be spliced by the deletion substeps. -/
def cellSafe : PValue → Bool
  | .vstr s => s.all safeChar
  | _ => true

theorem cleanCell_idem {v : PValue} (hs : cellSafe v = true) :
    canonicalizeCell (cleanCellStage1 (canonicalizeCell (cleanCellStage1 v))) =
      canonicalizeCell (cleanCellStage1 v) := by
  cases v with
  | vnull => rfl
  | vint n => rfl
  | vstruct fs => rfl
  | vstr s =>
    have hsafe : ∀ c ∈ s, safeChar c = true := by
      simpa [cellSafe] using hs
    show canonicalizeCell (cleanCellStage1
      (canonicalizeCell (PValue.vstr (cleanChars s)))) =
      canonicalizeCell (PValue.vstr (cleanChars s))
    cases he : EMPTY_TOKENS.contains (cleanStep8 (cleanChars s)) with
    | true =>
      have hmem : cleanStep8 (cleanChars s) ∈ EMPTY_TOKENS := by
        simpa using he
      have h1 : canonicalizeCell (PValue.vstr (cleanChars s)) = PValue.vnull := by
        simp [canonicalizeCell, hmem]
      rw [h1]
      rfl
    | false =>
      have hmem : cleanStep8 (cleanChars s) ∉ EMPTY_TOKENS := by
        simpa using he
      have h1 : canonicalizeCell (PValue.vstr (cleanChars s)) =
          PValue.vstr (cleanChars s) := by
        simp [canonicalizeCell, hmem]
      rw [h1]
      show canonicalizeCell (PValue.vstr (cleanChars (cleanChars s))) =
        PValue.vstr (cleanChars s)
      rw [cleanChars_idem hsafe]
      exact h1

theorem applyDataCleaning_eq_map (f : Frame) :
    applyDataCleaning f =
      f.map fun p =>
        (p.1, p.2.map fun v => canonicalizeCell (cleanCellStage1 v)) := by
  unfold applyDataCleaning
  rw [List.map_map]
  refine List.map_congr_left fun p _ => ?_
  simp [List.map_map]

/-- C8 (counterexample): the cleaning chain is not idempotent.  In the cell
`"&n<U+200B>bsp;x"` the invisible-formatter deletion splices together the
literal token `&nbsp;`; the first pass leaves `"&nbsp;x"`, and a second
pass replaces the token and strips, leaving `"x"`. -/
theorem C8_cleaning_not_idempotent :
    applyDataCleaning (applyDataCleaning
      [("a", [PValue.vstr ['&', 'n', '\u200B', 'b', 's', 'p', ';', 'x']])]) ≠
      applyDataCleaning
        [("a", [PValue.vstr ['&', 'n', '\u200B', 'b', 's', 'p', ';', 'x']])] := by
  intro h
  have h1 : applyDataCleaning
      [("a", [PValue.vstr ['&', 'n', '\u200B', 'b', 's', 'p', ';', 'x']])] =
      [("a", [PValue.vstr "&nbsp;x".toList])] := rfl
  have h2 : applyDataCleaning (applyDataCleaning
      [("a", [PValue.vstr ['&', 'n', '\u200B', 'b', 's', 'p', ';', 'x']])]) =
      [("a", [PValue.vstr "x".toList])] := rfl
  rw [h2, h1] at h
  simp only [List.cons.injEq, Prod.mk.injEq, PValue.vstr.injEq, and_true,
    true_and] at h
  exact absurd h (by decide)

/-- C8 (amended): the cleaning substeps applied twice produce the same
columns as applied once, for every table whose string cells contain no
invisible-formatter characters (U+200B, U+200C, U+200D, U+2060, U+00AD,
U+200E, U+200F, U+061C) and no ASCII control characters other than tab,
newline and carriage return; without that restriction the deletion substeps
can splice together a literal token (such as `&nbsp;` or `\\n`) that only
the second pass rewrites. -/
theorem C8_cleaning_idempotent_amended (f : Frame)
    (hall : f.all (fun p => p.2.all cellSafe) = true) :
    applyDataCleaning (applyDataCleaning f) = applyDataCleaning f := by
  have hsafe : ∀ p ∈ f, ∀ v ∈ p.2, cellSafe v = true := by
    simpa [List.all_eq_true] using hall
  rw [applyDataCleaning_eq_map f, applyDataCleaning_eq_map, List.map_map]
  refine List.map_congr_left fun p hp => ?_
  show (p.1, (p.2.map fun v => canonicalizeCell (cleanCellStage1 v)).map
    fun v => canonicalizeCell (cleanCellStage1 v)) = _
  rw [List.map_map]
  refine congrArg (Prod.mk p.1) (List.map_congr_left fun v hv => ?_)
  exact cleanCell_idem (hsafe p hp v hv)

theorem C8_witness :
    applyDataCleaning (applyDataCleaning
      [("a", [PValue.vstr "a  b".toList, PValue.vnull])]) =
      applyDataCleaning [("a", [PValue.vstr "a  b".toList, PValue.vnull])] :=
  C8_cleaning_idempotent_amended
    [("a", [PValue.vstr "a  b".toList, PValue.vnull])] (by decide)

end LiveDataCleaner
